import Mathlib

/-!
Shallow embedding of the Cuckoo Cycle miner (Genoil/cuckoo) and proofs about it.

The embedding follows `src/cuckoo_miner.h` (CPU flavour, the non-`ATOMIC`
branches) with the CUDA sources (`src/cuda_miner.cu` and the unnamed CUDA
translation unit) consulted where the claims cite them.  Machine integers are
modelled as `Nat` with explicit `% 2^64` / `% 2^32` where C overflow or
truncation matters.  The SipHash node function lives in `cuckoo.h`, which is
not part of this repository snapshot; all developments are parametric in an
arbitrary node function `sipn : Nat → Nat → Nat` (nonce, side ↦ node), which
is all the cited claims need of it.
-/

set_option maxRecDepth 16384

namespace Cuckoo

/-- Compile-time parameters of the solver.  `SIZE`, `HALFSIZE`, `NODEMASK`
come from `cuckoo.h` (not in this snapshot); their values are fixed by the
spec §3: `SIZE = 2^SIZESHIFT`, `HALFSIZE = SIZE/2`, `NODEMASK = SIZE/2 - 1`. -/
structure Params where
  SIZESHIFT : Nat
  PART_BITS : Nat
  PROOFSIZE : Nat

namespace Params

def SIZE (P : Params) : Nat := 2 ^ P.SIZESHIFT

def HALFSIZE (P : Params) : Nat := P.SIZE / 2

def NODEMASK (P : Params) : Nat := P.SIZE / 2 - 1

/-- `#define PART_MASK ((1 << PART_BITS) - 1)` -/
def PART_MASK (P : Params) : Nat := (1 <<< P.PART_BITS) - 1

/-- `#define IDXSHIFT (PART_BITS + 6)` -/
def IDXSHIFT (P : Params) : Nat := P.PART_BITS + 6

/-- `#define CUCKOO_SIZE (SIZE >> IDXSHIFT)` -/
def CUCKOO_SIZE (P : Params) : Nat := P.SIZE >>> P.IDXSHIFT

/-- `#define CUCKOO_MASK (CUCKOO_SIZE - 1)` -/
def CUCKOO_MASK (P : Params) : Nat := P.CUCKOO_SIZE - 1

/-- `#define KEYBITS (64-SIZESHIFT)` -/
def KEYBITS (P : Params) : Nat := 64 - P.SIZESHIFT

/-- `#define KEYMASK ((1LL << KEYBITS) - 1)` -/
def KEYMASK (P : Params) : Nat := (1 <<< P.KEYBITS) - 1

/-- `#define NONCESHIFT (SIZESHIFT-1 - PART_BITS)` -/
def NONCESHIFT (P : Params) : Nat := P.SIZESHIFT - 1 - P.PART_BITS

/-- `#define NODEPARTMASK (NODEMASK >> PART_BITS)` -/
def NODEPARTMASK (P : Params) : Nat := P.NODEMASK >>> P.PART_BITS

theorem HALFSIZE_eq (P : Params) (h : 1 ≤ P.SIZESHIFT) :
    P.HALFSIZE = 2 ^ (P.SIZESHIFT - 1) := by
  unfold HALFSIZE SIZE
  have := Nat.pow_div h (show 0 < 2 by norm_num)
  simpa using this

theorem PART_MASK_eq (P : Params) : P.PART_MASK = 2 ^ P.PART_BITS - 1 := by
  simp [PART_MASK, Nat.shiftLeft_eq]

theorem KEYMASK_eq (P : Params) : P.KEYMASK = 2 ^ P.KEYBITS - 1 := by
  simp [KEYMASK, Nat.shiftLeft_eq]

theorem CUCKOO_SIZE_eq (P : Params) (h : P.IDXSHIFT ≤ P.SIZESHIFT) :
    P.CUCKOO_SIZE = 2 ^ (P.SIZESHIFT - P.IDXSHIFT) := by
  unfold CUCKOO_SIZE SIZE
  rw [Nat.shiftRight_eq_div_pow, Nat.pow_div h (by norm_num)]

end Params

/-! ### The `ffs`-driven word sweep

Every sweep over alive nonces in the source has the shape

```
u64 alive64 = alive->block(block);
for (nonce_t nonce = block-1; alive64; ) { // -1 compensates for 1-based ffs
  u32 ffs = __builtin_ffsll(alive64);
  nonce += ffs; alive64 >>= ffs;
  ... process nonce ...
  if (ffs & 64) break; // can't shift by 64
}
```

We model `__builtin_ffsll` (1 + index of least significant set bit, 0 on 0)
and the loop, which enumerates nonces in increasing order.  `ctzAux` is the
count-trailing-zeros helper, fuelled so that it reduces definitionally. -/

/-- Trailing-zero count of a positive number below `2^fuel`. -/
def ctzAux : Nat → Nat → Nat
  | 0, _ => 0
  | fuel + 1, w => if w % 2 = 1 then 0 else ctzAux fuel (w / 2) + 1

/-- `__builtin_ffsll`: one plus the index of the least significant set bit
of a 64-bit word; 0 if the word is 0. -/
def ffs64 (w : Nat) : Nat := if w = 0 then 0 else ctzAux 64 w + 1

theorem ctzAux_spec : ∀ (fuel w : Nat), w ≠ 0 → w < 2 ^ fuel →
    w.testBit (ctzAux fuel w) = true ∧ ∀ i < ctzAux fuel w, w.testBit i = false := by
  intro fuel
  induction fuel with
  | zero => intro w hw hlt; omega
  | succ f ih =>
    intro w hw hlt
    by_cases hodd : w % 2 = 1
    · simp [ctzAux, hodd, Nat.testBit_zero]
    · have hw2 : w / 2 ≠ 0 := by omega
      have hlt2 : w / 2 < 2 ^ f := by
        rw [Nat.pow_succ] at hlt; omega
      obtain ⟨h1, h2⟩ := ih (w / 2) hw2 hlt2
      refine ⟨?_, ?_⟩
      · simp only [ctzAux, hodd, if_false]
        rw [Nat.testBit_succ]
        exact h1
      · intro i hi
        simp only [ctzAux, hodd, if_false] at hi
        cases i with
        | zero => simp [Nat.testBit_zero]; omega
        | succ j =>
          rw [Nat.testBit_succ]
          exact h2 j (by omega)

theorem ffs64_spec (w : Nat) (hw : w ≠ 0) (hlt : w < 2 ^ 64) :
    w.testBit (ffs64 w - 1) = true ∧ (∀ i < ffs64 w - 1, w.testBit i = false) ∧
      1 ≤ ffs64 w ∧ ffs64 w ≤ 64 := by
  obtain ⟨h1, h2⟩ := ctzAux_spec 64 w hw hlt
  have hbound : ctzAux 64 w < 64 := by
    by_contra hge
    have : w.testBit (ctzAux 64 w) = false :=
      Nat.testBit_lt_two_pow (lt_of_lt_of_le hlt (Nat.pow_le_pow_right (by norm_num) (by omega)))
    rw [h1] at this; simp at this
  simp only [ffs64, hw, if_false, Nat.add_sub_cancel]
  exact ⟨h1, h2, by omega, by omega⟩

/-- The per-word sweep loop: starting from word `w` with base nonce `block`,
emit the nonces the loop processes, in order.  The `ffs &&& 64` test is the
source's `if (ffs & 64) break`. -/
def wordSweep : Nat → Nat → Nat → List Nat
  | 0, _, _ => []
  | fuel + 1, w, base =>
    if w = 0 then []
    else
      let f := ffs64 w
      let n := base + f - 1
      if f &&& 64 ≠ 0 then [n]
      else n :: wordSweep fuel (w >>> f) (base + f)

/-- The fuelled sweep enumerates exactly the set bits of the word, in
increasing order, offset by the base nonce. -/
theorem wordSweep_eq : ∀ (fuel k w base : Nat), w < 2 ^ k → k ≤ 64 → k ≤ fuel →
    wordSweep fuel w base = ((List.range k).filter (fun i => w.testBit i)).map (base + ·) := by
  intro fuel
  induction fuel with
  | zero =>
    intro k w base hw hk hf
    interval_cases k
    interval_cases w
    simp [wordSweep]
  | succ fl ih =>
    intro k w base hw hk hf
    by_cases hw0 : w = 0
    · subst hw0
      simp [wordSweep, Nat.testBit_zero]
    · have hw64 : w < 2 ^ 64 := lt_of_lt_of_le hw (Nat.pow_le_pow_right (by norm_num) hk)
      obtain ⟨hbit, hlow, hge1, hle64⟩ := ffs64_spec w hw0 hw64
      set f := ffs64 w with hfdef
      have hck : f - 1 < k := by
        by_contra hge
        have : w.testBit (f - 1) = false :=
          Nat.testBit_lt_two_pow (lt_of_lt_of_le hw (Nat.pow_le_pow_right (by norm_num) (by omega)))
        rw [hbit] at this; simp at this
      have hfk : f ≤ k := by omega
      have hhead : (List.range f).filter (fun i => w.testBit i) = [f - 1] := by
        have hf' : f = (f - 1) + 1 := by omega
        rw [hf', List.range_succ, List.filter_append]
        have h1 : (List.range (f - 1)).filter (fun i => w.testBit i) = [] := by
          rw [List.filter_eq_nil_iff]
          intro a ha
          simp only [List.mem_range] at ha
          simp [hlow a ha]
        simp [h1, hbit]
      -- decompose the filtered range at the first set bit
      have hsplit : (List.range k).filter (fun i => w.testBit i) =
          (f - 1) :: ((List.range (k - f)).filter (fun i => (w >>> f).testBit i)).map (f + ·) := by
        conv_lhs => rw [show k = f + (k - f) by omega, List.range_add]
        rw [List.filter_append, List.filter_map, hhead, List.singleton_append]
        congr 1
        congr 1
        apply List.filter_congr
        intro i _
        simp only [Function.comp]
        rw [Nat.testBit_shiftRight]
      by_cases hbrk : f &&& 64 ≠ 0
      · -- `ffs & 64` fires iff `f = 64`, so `k = 64` and bit 63 is the only bit left
        have hf64 : f = 64 := by
          rcases Nat.lt_or_ge f 64 with h | h
          · exfalso
            apply hbrk
            have : f < 2 ^ 6 := by omega
            have hb6 : f.testBit 6 = false := Nat.testBit_lt_two_pow this
            have : f &&& 64 = f &&& 2 ^ 6 := by norm_num
            rw [this, Nat.and_two_pow, hb6]
            simp
          · omega
        have hkeq : k = 64 := by omega
        simp only [wordSweep, hw0, if_false, ← hfdef, hbrk, if_true]
        rw [hsplit, hf64, hkeq]
        simp
      · have hflt : f < 64 := by
          rcases Nat.lt_or_ge f 64 with h | h
          · exact h
          · exfalso; apply hbrk
            have hf64 : f = 64 := by omega
            rw [hf64]; norm_num
        have hrec : w >>> f < 2 ^ (k - f) := by
          rw [Nat.shiftRight_eq_div_pow]
          apply Nat.div_lt_of_lt_mul
          calc w < 2 ^ k := hw
          _ = 2 ^ f * 2 ^ (k - f) := by rw [← Nat.pow_add]; congr 1; omega
        simp only [wordSweep, hw0, if_false, ← hfdef, hbrk, if_false, ite_not]
        rw [ih (k - f) (w >>> f) (base + f) hrec (by omega) (by omega), hsplit]
        simp only [List.map_cons, List.map_map]
        congr 1
        · omega
        · congr 1
          funext i
          simp only [Function.comp_apply]
          omega

/-- Elements of the word sweep: membership characterisation. -/
theorem mem_wordSweep (w base n : Nat) (hw : w < 2 ^ 64) :
    n ∈ wordSweep 64 w base ↔ ∃ r < 64, w.testBit r = true ∧ n = base + r := by
  rw [wordSweep_eq 64 64 w base hw (le_refl _) (le_refl _)]
  simp only [List.mem_map, List.mem_filter, List.mem_range]
  constructor
  · rintro ⟨r, ⟨hr, hb⟩, rfl⟩
    exact ⟨r, hr, hb, rfl⟩
  · rintro ⟨r, hr, hb, rfl⟩
    exact ⟨r, ⟨hr, hb⟩, rfl⟩

/-- The word sweep is strictly increasing. -/
theorem wordSweep_sorted (w base : Nat) (hw : w < 2 ^ 64) :
    List.Sorted (· < ·) (wordSweep 64 w base) := by
  rw [wordSweep_eq 64 64 w base hw (le_refl _) (le_refl _)]
  exact List.Pairwise.map _ (fun a b h => by omega)
    ((List.sorted_lt_range 64).sublist (List.filter_sublist _))

theorem wordSweep_bounds (w base n : Nat) (hw : w < 2 ^ 64) (h : n ∈ wordSweep 64 w base) :
    base ≤ n ∧ n < base + 64 := by
  rw [mem_wordSweep w base n hw] at h
  obtain ⟨r, hr, _, rfl⟩ := h
  omega

/-! ### `shrinkingset` (the AliveSet)

`class shrinkingset` of `cuckoo_miner.h`: a bitmap over `HALFSIZE` nonces
(`std::vector<u64> bits`, indexed by `n/64`, modelled as a function from word
index to word value) plus per-thread counters `std::vector<u64> cnt`.
Stored bit set = nonce dead; bit clear = alive. -/

structure shrinkingset where
  bits : Nat → Nat
  cnt : List Nat

namespace shrinkingset

/-- The constructor `shrinkingset(u32 nthreads)`: `bits` is resized to
`HALFSIZE/64` zero words, `cnt` to `nthreads` zero entries, then
`cnt[0] = HALFSIZE`. -/
def init (P : Params) (nthreads : Nat) : shrinkingset :=
  { bits := fun _ => 0
    cnt := (List.replicate nthreads 0).set 0 P.HALFSIZE }

/-- `count()`: sum the per-thread counters in a `u64`. -/
def count (s : shrinkingset) : Nat :=
  s.cnt.foldl (fun sum c => (sum + c) % 2 ^ 64) 0

/-- `reset(n, thread)`: `bits[n/64] |= 1LL << (n%64); cnt[thread]--;`
(the decrement wraps as a `u64`). -/
def reset (s : shrinkingset) (n thread : Nat) : shrinkingset :=
  { bits := fun j => if j = n / 64 then s.bits (n / 64) ||| (1 <<< (n % 64)) else s.bits j
    cnt := s.cnt.set thread ((s.cnt.getD thread 0 + (2 ^ 64 - 1)) % 2 ^ 64) }

/-- `test(n)`: `!((bits[n/64] >> (n%64)) & 1LL)`. -/
def test (s : shrinkingset) (n : Nat) : Bool :=
  decide ((s.bits (n / 64) >>> (n % 64)) &&& 1 = 0)

/-- `block(n)`: `~bits[n/64]`, the 64-bit complement of the word holding
nonce `n`. -/
def block (s : shrinkingset) (n : Nat) : Nat :=
  (2 ^ 64 - 1) ^^^ s.bits (n / 64)

/-- The number of alive nonces (what the spec calls "popcount over the
whole bitmap"). -/
def aliveCount (P : Params) (s : shrinkingset) : Nat :=
  ((List.range P.HALFSIZE).filter (fun n => s.test n)).length

theorem test_eq_not_testBit (s : shrinkingset) (n : Nat) :
    s.test n = !(s.bits (n / 64)).testBit (n % 64) := by
  unfold test
  rw [Nat.and_one_is_mod, Nat.shiftRight_eq_div_pow, Nat.testBit_to_div_mod]
  rcases Nat.mod_two_eq_zero_or_one (s.bits (n / 64) / 2 ^ (n % 64)) with h | h <;> simp [h]

theorem block_testBit (s : shrinkingset) (n i : Nat) (hi : i < 64) :
    (s.block n).testBit i = !(s.bits (n / 64)).testBit i := by
  unfold block
  rw [Nat.testBit_xor, Nat.testBit_two_pow_sub_one]
  simp [hi]

theorem block_lt (s : shrinkingset) (n : Nat) (hw : s.bits (n / 64) < 2 ^ 64) :
    s.block n < 2 ^ 64 :=
  Nat.xor_lt_two_pow (by norm_num) hw

/-- Bit `r` of the block word at a 64-aligned base is the alive bit of
nonce `blk + r`. -/
theorem block_testBit_test (s : shrinkingset) (blk r : Nat) (hblk : blk % 64 = 0)
    (hr : r < 64) :
    (s.block blk).testBit r = s.test (blk + r) := by
  rw [block_testBit s blk r hr, test_eq_not_testBit]
  have h1 : (blk + r) / 64 = blk / 64 := by omega
  have h2 : (blk + r) % 64 = r := by omega
  rw [h1, h2]

theorem test_reset (s : shrinkingset) (n t m : Nat) :
    (s.reset n t).test m = (s.test m && !(decide (m = n))) := by
  rw [test_eq_not_testBit, test_eq_not_testBit]
  unfold reset
  simp only
  by_cases hj : m / 64 = n / 64
  · rw [if_pos hj, hj, Nat.testBit_or, Nat.one_shiftLeft]
    by_cases hm : m = n
    · subst hm
      rw [Nat.testBit_two_pow_self]
      simp
    · have hbit : m % 64 ≠ n % 64 := by omega
      rw [Nat.testBit_two_pow_of_ne (fun h => hbit h.symm)]
      simp [hm]
  · rw [if_neg hj]
    have hm : m ≠ n := fun h => hj (by rw [h])
    simp [hm]

theorem test_reset_mono (s : shrinkingset) (n t m : Nat)
    (h : (s.reset n t).test m = true) : s.test m = true := by
  rw [test_reset] at h
  exact (Bool.and_eq_true_iff.mp h).1

theorem bits_reset_lt (s : shrinkingset) (n t : Nat) (hw : ∀ j, s.bits j < 2 ^ 64)
    (hn : n % 64 < 64) : ∀ j, ((s.reset n t).bits j) < 2 ^ 64 := by
  intro j
  unfold reset
  simp only
  by_cases hj : j = n / 64
  · rw [if_pos hj, Nat.one_shiftLeft]
    exact Nat.or_lt_two_pow (hw _)
      (Nat.pow_lt_pow_right (by norm_num) (by omega))
  · rw [if_neg hj]; exact hw j

end shrinkingset

/-! ### `twice_set` (the DegreeSet)

`class twice_set` of `cuckoo_miner.h` (non-`ATOMIC` branch): 2 bits per
node, in an array of `u32` words indexed by `u/16`. -/

structure twice_set where
  bits : Nat → Nat

namespace twice_set

/-- `twice_set()` (calloc) and `reset()` (memset 0): all words zero. -/
def reset : twice_set := ⟨fun _ => 0⟩

/-- `set(u)` (non-`ATOMIC` branch):
`old = bits[idx]; bits[idx] = old | (bit + (old & bit));` with
`idx = u/16` and `bit = 1 << (2*(u%16))`. -/
def set (ts : twice_set) (u : Nat) : twice_set :=
  let idx := u / 16
  let bit := 1 <<< (2 * (u % 16))
  let old := ts.bits idx
  ⟨fun j => if j = idx then old ||| (bit + (old &&& bit)) else ts.bits j⟩

/-- `test(u)`: `bits[u/16] >> (2 * (u%16)) & 2`, a `u32` used as a boolean. -/
def test (ts : twice_set) (u : Nat) : Nat :=
  ts.bits (u / 16) >>> (2 * (u % 16)) &&& 2

/-- The full 2-bit counter field of node `u`. -/
def fieldVal (ts : twice_set) (u : Nat) : Nat :=
  ts.bits (u / 16) >>> (2 * (u % 16)) &&& 3

theorem fieldVal_eq_testBits (ts : twice_set) (u : Nat) :
    ts.fieldVal u = (cond ((ts.bits (u / 16)).testBit (2 * (u % 16))) 1 0) +
      2 * (cond ((ts.bits (u / 16)).testBit (2 * (u % 16) + 1)) 1 0) := by
  unfold fieldVal
  set w := ts.bits (u / 16)
  set r := 2 * (u % 16)
  have h3 : (3 : Nat) = 2 ^ 2 - 1 := by norm_num
  rw [h3, Nat.and_pow_two_sub_one_eq_mod, Nat.shiftRight_eq_div_pow]
  have hb0 : w.testBit r = decide (w / 2 ^ r % 2 = 1) := Nat.testBit_to_div_mod
  have hb1 : w.testBit (r + 1) = decide (w / 2 ^ r / 2 % 2 = 1) := by
    rw [Nat.testBit_to_div_mod, Nat.pow_succ, Nat.div_div_eq_div_mul]
  rw [hb0, hb1]
  rcases Nat.mod_two_eq_zero_or_one (w / 2 ^ r) with h | h <;>
    rcases Nat.mod_two_eq_zero_or_one (w / 2 ^ r / 2) with h' | h' <;>
    simp [h, h'] <;> omega

theorem test_eq_testBit (ts : twice_set) (u : Nat) :
    ts.test u = cond ((ts.bits (u / 16)).testBit (2 * (u % 16) + 1)) 2 0 := by
  unfold test
  set w := ts.bits (u / 16)
  set r := 2 * (u % 16)
  have hb1 : (w / 2 ^ r).testBit 1 = w.testBit (r + 1) := by
    rw [Nat.testBit_to_div_mod, Nat.testBit_to_div_mod, Nat.div_div_eq_div_mul, ← Nat.pow_succ]
  have e1 : w >>> r &&& 2 = ((w / 2 ^ r).testBit 1).toNat * 2 := by
    have := Nat.and_two_pow (w >>> r) 1
    rw [Nat.shiftRight_eq_div_pow] at this ⊢
    simpa using this
  rw [e1, hb1]
  cases w.testBit (r + 1) <;> simp

/-- One `set(u)` call moves node `u`'s 2-bit field `00→01`, anything
else (`01`, `10`, `11`) to `11`. -/
theorem fieldVal_set_self (ts : twice_set) (u : Nat) :
    (ts.set u).fieldVal u = if ts.fieldVal u = 0 then 1 else 3 := by
  rw [fieldVal_eq_testBits, fieldVal_eq_testBits]
  have hb : (ts.set u).bits (u / 16) = ts.bits (u / 16) |||
      (2 ^ (2 * (u % 16)) + (ts.bits (u / 16) &&& 2 ^ (2 * (u % 16)))) := by
    unfold set
    simp [Nat.one_shiftLeft]
  rw [hb]
  set w := ts.bits (u / 16)
  set r := 2 * (u % 16)
  have hr1 : r ≠ r + 1 := by omega
  have hr2 : r + 1 ≠ r := by omega
  cases hl : w.testBit r with
  | false =>
    have h0 : w &&& 2 ^ r = 0 := by rw [Nat.and_two_pow, hl]; simp
    rw [h0, Nat.add_zero, Nat.testBit_or, Nat.testBit_or, hl, Nat.testBit_two_pow_self,
      Nat.testBit_two_pow_of_ne hr1]
    cases hh : w.testBit (r + 1) <;> simp [hh]
  | true =>
    have h1 : w &&& 2 ^ r = 2 ^ r := by rw [Nat.and_two_pow, hl]; simp
    have hpow : 2 ^ r + 2 ^ r = 2 ^ (r + 1) := by ring
    rw [h1, hpow, Nat.testBit_or, Nat.testBit_or, hl, Nat.testBit_two_pow_self,
      Nat.testBit_two_pow_of_ne hr2]
    cases hh : w.testBit (r + 1) <;> simp [hh]

theorem fieldVal_le_three (ts : twice_set) (u : Nat) : ts.fieldVal u ≤ 3 :=
  Nat.and_le_right

/-- `set(u)` never lowers node `u`'s counter field. -/
theorem fieldVal_set_mono (ts : twice_set) (u : Nat) :
    ts.fieldVal u ≤ (ts.set u).fieldVal u := by
  rw [fieldVal_set_self]
  have := fieldVal_le_three ts u
  split <;> omega

/-- `test` reads exactly the high bit of the counter field. -/
theorem test_eq_of_fieldVal (ts : twice_set) (u : Nat) :
    ts.test u = if 2 ≤ ts.fieldVal u then 2 else 0 := by
  rw [test_eq_testBit, fieldVal_eq_testBits]
  cases hl : (ts.bits (u / 16)).testBit (2 * (u % 16)) <;>
    cases hh : (ts.bits (u / 16)).testBit (2 * (u % 16) + 1) <;> simp

/-- `k` consecutive `set(u)` calls starting from a freshly reset set. -/
def setIter (u k : Nat) : twice_set := (fun ts => twice_set.set ts u)^[k] twice_set.reset

theorem fieldVal_setIter (u k : Nat) :
    (setIter u k).fieldVal u = if k = 0 then 0 else if k = 1 then 1 else 3 := by
  induction k with
  | zero =>
    simp only [setIter, Function.iterate_zero, id_eq, if_pos rfl]
    unfold fieldVal reset
    simp
  | succ k ih =>
    have : setIter u (k + 1) = (setIter u k).set u := Function.iterate_succ_apply' _ k _
    rw [this, fieldVal_set_self, ih]
    rcases Nat.eq_zero_or_pos k with hk | hk
    · subst hk; simp
    · rcases Nat.lt_or_ge k 2 with hk2 | hk2
      · have : k = 1 := by omega
        subst this; simp
      · have h1 : ¬ k = 0 := by omega
        have h2 : ¬ k = 1 := by omega
        have h3 : ¬ k + 1 = 0 := by omega
        have h4 : ¬ k + 1 = 1 := by omega
        simp [h1, h2, h3, h4]

end twice_set

/-! ### The trimming pipeline

`count_node_deg` and `kill_leaf_edges` from `cuckoo_miner.h`.  Both sweep
the alive nonces in 64-nonce blocks.  Threads own disjoint blocks
(`for (block = tp->id*64; block < HALFSIZE; block += nthreads*64)`), each
block's word is written only by its owner, and barriers separate the
phases, so the combined multi-thread effect is the per-block update applied
to every block; block `64*j` is owned by thread `j % nthreads`. -/

section Trim

variable (P : Params) (sipn : Nat → Nat → Nat)

/-- Buffer entry of `kill_leaf_edges`:
`buffer[bsize++] = ((u64)nonce << NONCESHIFT) | (u >> PART_BITS);`
(a `u64`, hence the truncation). -/
def killEntry (n u : Nat) : Nat :=
  ((n <<< P.NONCESHIFT) ||| (u >>> P.PART_BITS)) % 2 ^ 64

/-- One 64-nonce block of `kill_leaf_edges`: gather the buffer from the
block's word, then reset every buffered nonce whose node the degree set saw
at most once.  `tid` is the worker thread owning this block. -/
def killBlock (uorv part : Nat) (nonleaf : twice_set) (s : shrinkingset)
    (blk tid : Nat) : shrinkingset :=
  let buffer := (wordSweep 64 (s.block blk) blk).filterMap (fun n =>
    let u := sipn n uorv
    if u &&& P.PART_MASK = part then some (killEntry P n u) else none)
  buffer.foldl (fun s' bi =>
    if nonleaf.test (bi &&& P.NODEPARTMASK) = 0
    then s'.reset (blk ||| (bi >>> P.NONCESHIFT)) tid
    else s') s

/-- `kill_leaf_edges(tp, uorv, part)`, all threads combined. -/
def kill_leaf_edges (uorv part : Nat) (nonleaf : twice_set) (nthreads : Nat)
    (s : shrinkingset) : shrinkingset :=
  (List.range (P.HALFSIZE / 64)).foldl
    (fun s' j => killBlock P sipn uorv part nonleaf s' (64 * j) (j % nthreads)) s

/-- One 64-nonce block of `count_node_deg`: gather `u >> PART_BITS` for the
alive nonces of the block whose node lands in `part`, then `nonleaf->set`
each buffered value. -/
def countBlock (uorv part : Nat) (s : shrinkingset) (nonleaf : twice_set)
    (blk : Nat) : twice_set :=
  let buffer := (wordSweep 64 (s.block blk) blk).filterMap (fun n =>
    let u := sipn n uorv
    if u &&& P.PART_MASK = part then some (u >>> P.PART_BITS) else none)
  buffer.foldl (fun ts x => ts.set x) nonleaf

/-- `count_node_deg(tp, uorv, part)`, all threads combined. -/
def count_node_deg (uorv part : Nat) (s : shrinkingset) (nonleaf : twice_set) :
    twice_set :=
  (List.range (P.HALFSIZE / 64)).foldl
    (fun ts j => countBlock P sipn uorv part s ts (64 * j)) nonleaf

/-- One `(uorv, part)` pass of the worker trim loop: zero the degree set
(`nonleaf->reset()`), count node degrees, then kill leaf edges. -/
def trimPass (nthreads uorv part : Nat) (s : shrinkingset) : shrinkingset :=
  kill_leaf_edges P sipn uorv part
    (count_node_deg P sipn uorv part s twice_set.reset) nthreads s

/-- One full trim round:
`for (uorv = 0; uorv < 2; uorv++) for (part = 0; part <= PART_MASK; part++)`. -/
def trimRound (nthreads : Nat) (s : shrinkingset) : shrinkingset :=
  [0, 1].foldl (fun s' uorv =>
    (List.range (P.PART_MASK + 1)).foldl
      (fun s'' part => trimPass P sipn nthreads uorv part s'') s') s

end Trim

/-! #### Monotonicity: trimming only kills -/

theorem test_foldl_mono {α : Type} (f : shrinkingset → α → shrinkingset)
    (hf : ∀ s a m, (f s a).test m = true → s.test m = true) :
    ∀ (l : List α) (s : shrinkingset) (m : Nat),
      ((l.foldl f s).test m = true → s.test m = true) := by
  intro l
  induction l with
  | nil => intro s m h; exact h
  | cons a rest ih => intro s m h; exact hf s a m (ih (f s a) m h)

theorem killBlock_mono (P : Params) (sipn : Nat → Nat → Nat)
    (uorv part : Nat) (nonleaf : twice_set) (s : shrinkingset) (blk tid m : Nat)
    (h : (killBlock P sipn uorv part nonleaf s blk tid).test m = true) :
    s.test m = true := by
  unfold killBlock at h
  refine test_foldl_mono _ ?_ _ s m h
  intro s' bi m' h'
  by_cases hc : nonleaf.test (bi &&& P.NODEPARTMASK) = 0
  · rw [if_pos hc] at h'
    exact shrinkingset.test_reset_mono _ _ _ _ h'
  · rwa [if_neg hc] at h'

theorem kill_leaf_edges_mono (P : Params) (sipn : Nat → Nat → Nat)
    (uorv part : Nat) (nonleaf : twice_set) (nthreads : Nat) (s : shrinkingset) (m : Nat)
    (h : (kill_leaf_edges P sipn uorv part nonleaf nthreads s).test m = true) :
    s.test m = true := by
  unfold kill_leaf_edges at h
  exact test_foldl_mono _
    (fun s' j m' h' => killBlock_mono P sipn uorv part nonleaf s' _ _ m' h') _ s m h

theorem trimPass_mono (P : Params) (sipn : Nat → Nat → Nat)
    (nthreads uorv part : Nat) (s : shrinkingset) (m : Nat)
    (h : (trimPass P sipn nthreads uorv part s).test m = true) :
    s.test m = true :=
  kill_leaf_edges_mono P sipn uorv part _ nthreads s m h

theorem trimRound_mono (P : Params) (sipn : Nat → Nat → Nat)
    (nthreads : Nat) (s : shrinkingset) (m : Nat)
    (h : (trimRound P sipn nthreads s).test m = true) :
    s.test m = true := by
  unfold trimRound at h
  refine test_foldl_mono _ ?_ _ s m h
  intro s' uorv m' h'
  exact test_foldl_mono _
    (fun s'' part m'' h'' => trimPass_mono P sipn nthreads uorv part s'' m'' h'') _ s' m' h'

/-! #### Exact characterisation of the kill phase -/

/-- The kill condition of the claim: the nonce's node lands in the current
partition and the degree set saw it at most once. -/
def killCond (P : Params) (sipn : Nat → Nat → Nat) (uorv part : Nat)
    (nonleaf : twice_set) (n : Nat) : Bool :=
  decide (sipn n uorv &&& P.PART_MASK = part) &&
    decide (nonleaf.test (sipn n uorv >>> P.PART_BITS) = 0)

theorem NODEPARTMASK_eq (P : Params) (h1 : P.PART_BITS + 1 ≤ P.SIZESHIFT) :
    P.NODEPARTMASK = 2 ^ P.NONCESHIFT - 1 := by
  unfold Params.NODEPARTMASK Params.NONCESHIFT
  have hmask : P.NODEMASK = 2 ^ (P.SIZESHIFT - 1) - 1 := by
    unfold Params.NODEMASK
    rw [show P.SIZE / 2 = P.HALFSIZE from rfl, P.HALFSIZE_eq (by omega)]
  rw [hmask]
  apply Nat.eq_of_testBit_eq
  intro i
  rw [Nat.testBit_shiftRight, Nat.testBit_two_pow_sub_one, Nat.testBit_two_pow_sub_one]
  simp only [decide_eq_decide]
  omega

theorem killEntry_node (P : Params) (n u : Nat)
    (h1 : P.PART_BITS + 1 ≤ P.SIZESHIFT) (h2 : P.SIZESHIFT ≤ 59 + P.PART_BITS)
    (hu : u >>> P.PART_BITS < 2 ^ P.NONCESHIFT) :
    killEntry P n u &&& P.NODEPARTMASK = u >>> P.PART_BITS := by
  rw [NODEPARTMASK_eq P h1]
  unfold killEntry
  rw [Nat.and_pow_two_sub_one_eq_mod]
  have hns : P.NONCESHIFT ≤ 64 := by unfold Params.NONCESHIFT; omega
  rw [Nat.mod_mod_of_dvd _ (Nat.pow_dvd_pow 2 hns)]
  apply Nat.eq_of_testBit_eq
  intro i
  rw [Nat.testBit_mod_two_pow, Nat.testBit_or, Nat.testBit_shiftLeft]
  by_cases hi : i < P.NONCESHIFT
  · have hsh : ¬ P.NONCESHIFT ≤ i := by omega
    simp [hi, hsh]
  · have hup : (u >>> P.PART_BITS).testBit i = false :=
      Nat.testBit_lt_two_pow (lt_of_lt_of_le hu (Nat.pow_le_pow_right (by norm_num) (by omega)))
    simp [hi, hup]

theorem killEntry_decode (P : Params) (n u : Nat)
    (h2 : P.SIZESHIFT ≤ 59 + P.PART_BITS)
    (hu : u >>> P.PART_BITS < 2 ^ P.NONCESHIFT) :
    64 * (n / 64) ||| (killEntry P n u >>> P.NONCESHIFT) = n := by
  have hns : P.NONCESHIFT + 6 ≤ 64 := by unfold Params.NONCESHIFT; omega
  apply Nat.eq_of_testBit_eq
  intro i
  rw [Nat.testBit_or]
  have hblk : 64 * (n / 64) = (n >>> 6) <<< 6 := by
    rw [Nat.shiftRight_eq_div_pow, Nat.shiftLeft_eq]
    norm_num
    ring
  have hblkbit : (64 * (n / 64)).testBit i = (decide (6 ≤ i) && n.testBit i) := by
    rw [hblk, Nat.testBit_shiftLeft]
    by_cases h6 : 6 ≤ i
    · rw [Nat.testBit_shiftRight]
      have : 6 + (i - 6) = i := by omega
      rw [this]
    · simp [h6]
  have hebit : (killEntry P n u >>> P.NONCESHIFT).testBit i =
      (decide (P.NONCESHIFT + i < 64) && n.testBit i) := by
    rw [Nat.testBit_shiftRight]
    unfold killEntry
    rw [Nat.testBit_mod_two_pow, Nat.testBit_or, Nat.testBit_shiftLeft]
    have hup : (u >>> P.PART_BITS).testBit (P.NONCESHIFT + i) = false :=
      Nat.testBit_lt_two_pow (lt_of_lt_of_le hu (Nat.pow_le_pow_right (by norm_num) (by omega)))
    have hle : P.NONCESHIFT ≤ P.NONCESHIFT + i := by omega
    have hsub : P.NONCESHIFT + i - P.NONCESHIFT = i := by omega
    simp [hup, hle, hsub]
  rw [hblkbit, hebit]
  by_cases h6 : 6 ≤ i
  · by_cases hlt : P.NONCESHIFT + i < 64 <;> cases n.testBit i <;> simp [h6, hlt]
  · have hlt : P.NONCESHIFT + i < 64 := by omega
    cases n.testBit i <;> simp [h6, hlt]

theorem test_foldl_reset (tid : Nat) : ∀ (K : List Nat) (s : shrinkingset) (m : Nat),
    ((K.foldl (fun s' n => s'.reset n tid) s).test m) = (s.test m && !(decide (m ∈ K))) := by
  intro K
  induction K with
  | nil => intro s m; simp
  | cons n rest ih =>
    intro s m
    rw [List.foldl_cons, ih, shrinkingset.test_reset]
    simp only [List.mem_cons]
    by_cases h1 : m = n <;> by_cases h2 : m ∈ rest <;> simp [h1, h2]

/-- The buffered two-stage kill loop is the same as directly resetting the
killed nonces of the block. -/
theorem killBlock_eq_foldl_reset (P : Params) (sipn : Nat → Nat → Nat)
    (uorv part : Nat) (nonleaf : twice_set) (s : shrinkingset) (blk tid : Nat)
    (h1 : P.PART_BITS + 1 ≤ P.SIZESHIFT) (h2 : P.SIZESHIFT ≤ 59 + P.PART_BITS)
    (hsip : ∀ m, sipn m uorv >>> P.PART_BITS < 2 ^ P.NONCESHIFT)
    (hws : ∀ m ∈ wordSweep 64 (s.block blk) blk, 64 * (m / 64) = blk) :
    killBlock P sipn uorv part nonleaf s blk tid =
      ((wordSweep 64 (s.block blk) blk).filter
        (killCond P sipn uorv part nonleaf)).foldl (fun s' n => s'.reset n tid) s := by
  unfold killBlock
  simp only
  -- a general fold lemma over the swept list
  suffices hgen : ∀ (ws : List Nat), (∀ m ∈ ws, 64 * (m / 64) = blk) → ∀ (s₀ : shrinkingset),
      (ws.filterMap (fun n =>
        if sipn n uorv &&& P.PART_MASK = part then some (killEntry P n (sipn n uorv)) else none)
       ).foldl (fun s' bi =>
        if nonleaf.test (bi &&& P.NODEPARTMASK) = 0
        then s'.reset (blk ||| (bi >>> P.NONCESHIFT)) tid
        else s') s₀ =
      (ws.filter (killCond P sipn uorv part nonleaf)).foldl (fun s' n => s'.reset n tid) s₀ by
    exact hgen _ hws s
  intro ws
  induction ws with
  | nil => intro _ s₀; rfl
  | cons m rest ih =>
    intro hmem s₀
    have hrest : ∀ x ∈ rest, 64 * (x / 64) = blk := fun x hx => hmem x (List.mem_cons_of_mem m hx)
    have hm : 64 * (m / 64) = blk := hmem m (List.mem_cons_self m rest)
    by_cases hpart : sipn m uorv &&& P.PART_MASK = part
    · have hfm : (if sipn m uorv &&& P.PART_MASK = part
          then some (killEntry P m (sipn m uorv)) else none) =
          some (killEntry P m (sipn m uorv)) := if_pos hpart
      simp only [List.filterMap_cons, hfm, List.foldl_cons]
      rw [killEntry_node P m (sipn m uorv) h1 h2 (hsip m)]
      have hdec : blk ||| (killEntry P m (sipn m uorv) >>> P.NONCESHIFT) = m := by
        rw [← hm]; exact killEntry_decode P m (sipn m uorv) h2 (hsip m)
      rw [hdec]
      by_cases hdeg : nonleaf.test (sipn m uorv >>> P.PART_BITS) = 0
      · rw [if_pos hdeg]
        have hcond : killCond P sipn uorv part nonleaf m = true := by
          unfold killCond; simp [hpart, hdeg]
        rw [List.filter_cons_of_pos hcond, List.foldl_cons]
        exact ih hrest _
      · rw [if_neg hdeg]
        have hcond : killCond P sipn uorv part nonleaf m = false := by
          unfold killCond; simp [hdeg]
        rw [List.filter_cons_of_neg (by rw [hcond]; exact Bool.false_ne_true)]
        exact ih hrest _
    · have hfm : (if sipn m uorv &&& P.PART_MASK = part
          then some (killEntry P m (sipn m uorv)) else none) = none := if_neg hpart
      simp only [List.filterMap_cons, hfm]
      have hcond : killCond P sipn uorv part nonleaf m = false := by
        unfold killCond; simp [hpart]
      rw [List.filter_cons_of_neg (by rw [hcond]; exact Bool.false_ne_true)]
      exact ih hrest _

/-- Membership in the swept-and-filtered kill list. -/
theorem mem_killList (P : Params) (sipn : Nat → Nat → Nat) (uorv part : Nat)
    (nonleaf : twice_set) (s : shrinkingset) (blk n : Nat) (hblk : blk % 64 = 0)
    (hball : ∀ j, s.bits j < 2 ^ 64) :
    (n ∈ (wordSweep 64 (s.block blk) blk).filter (killCond P sipn uorv part nonleaf)) ↔
      (n / 64 = blk / 64 ∧ s.test n = true ∧ killCond P sipn uorv part nonleaf n = true) := by
  rw [List.mem_filter, mem_wordSweep _ _ _ (shrinkingset.block_lt s blk (hball _))]
  constructor
  · rintro ⟨⟨r, hr, hbit, rfl⟩, hc⟩
    rw [shrinkingset.block_testBit_test s blk r hblk hr] at hbit
    exact ⟨by omega, hbit, hc⟩
  · rintro ⟨hdiv, htest, hc⟩
    refine ⟨⟨n % 64, by omega, ?_, by omega⟩, hc⟩
    rw [shrinkingset.block_testBit_test s blk (n % 64) hblk (by omega)]
    have : blk + n % 64 = n := by omega
    rwa [this]

/-- Per-block kill characterisation: within the block the alive bit of `n`
is and-ed with the negated kill condition; all other nonces are untouched. -/
theorem test_killBlock (P : Params) (sipn : Nat → Nat → Nat) (uorv part : Nat)
    (nonleaf : twice_set) (s : shrinkingset) (blk tid n : Nat)
    (hblk : blk % 64 = 0)
    (h1 : P.PART_BITS + 1 ≤ P.SIZESHIFT) (h2 : P.SIZESHIFT ≤ 59 + P.PART_BITS)
    (hsip : ∀ m, sipn m uorv >>> P.PART_BITS < 2 ^ P.NONCESHIFT)
    (hball : ∀ j, s.bits j < 2 ^ 64) :
    (killBlock P sipn uorv part nonleaf s blk tid).test n =
      if n / 64 = blk / 64
      then (s.test n && !killCond P sipn uorv part nonleaf n)
      else s.test n := by
  have hws : ∀ m ∈ wordSweep 64 (s.block blk) blk, 64 * (m / 64) = blk := by
    intro m hm
    obtain ⟨hlo, hhi⟩ := wordSweep_bounds _ _ _ (shrinkingset.block_lt s blk (hball _)) hm
    omega
  rw [killBlock_eq_foldl_reset P sipn uorv part nonleaf s blk tid h1 h2 hsip hws,
    test_foldl_reset]
  have hmem := mem_killList P sipn uorv part nonleaf s blk n hblk hball
  by_cases hdiv : n / 64 = blk / 64
  · rw [if_pos hdiv]
    by_cases htest : s.test n = true
    · by_cases hc : killCond P sipn uorv part nonleaf n = true
      · have : decide (n ∈ _) = true := decide_eq_true (hmem.mpr ⟨hdiv, htest, hc⟩)
        rw [this, htest, hc]
      · have : decide (n ∈ (wordSweep 64 (s.block blk) blk).filter
            (killCond P sipn uorv part nonleaf)) = false := by
          simp only [decide_eq_false_iff_not]
          intro hin
          exact hc (hmem.mp hin).2.2
        rw [this, htest]
        simp [Bool.eq_false_iff.mpr hc]
    · have hf : s.test n = false := Bool.eq_false_iff.mpr htest
      rw [hf]
      simp
  · rw [if_neg hdiv]
    have : decide (n ∈ (wordSweep 64 (s.block blk) blk).filter
        (killCond P sipn uorv part nonleaf)) = false := by
      simp only [decide_eq_false_iff_not]
      intro hin
      exact hdiv (hmem.mp hin).1
    rw [this]
    simp

theorem bits_killBlock_lt (P : Params) (sipn : Nat → Nat → Nat) (uorv part : Nat)
    (nonleaf : twice_set) (s : shrinkingset) (blk tid : Nat)
    (hball : ∀ j, s.bits j < 2 ^ 64) :
    ∀ j, (killBlock P sipn uorv part nonleaf s blk tid).bits j < 2 ^ 64 := by
  unfold killBlock
  simp only
  generalize (wordSweep 64 (s.block blk) blk).filterMap _ = buffer
  induction buffer generalizing s with
  | nil => exact hball
  | cons bi rest ih =>
    rw [List.foldl_cons]
    by_cases hc : nonleaf.test (bi &&& P.NODEPARTMASK) = 0
    · rw [if_pos hc]
      exact ih _ (shrinkingset.bits_reset_lt s _ tid hball (Nat.mod_lt _ (by norm_num)))
    · rw [if_neg hc]
      exact ih _ hball

/-- Whole-pass kill characterisation (`kill_leaf_edges` over all blocks). -/
theorem test_kill_leaf_edges (P : Params) (sipn : Nat → Nat → Nat) (uorv part : Nat)
    (nonleaf : twice_set) (nthreads : Nat) (s : shrinkingset) (n : Nat)
    (h1 : P.PART_BITS + 1 ≤ P.SIZESHIFT) (h2 : P.SIZESHIFT ≤ 59 + P.PART_BITS)
    (hsip : ∀ m, sipn m uorv >>> P.PART_BITS < 2 ^ P.NONCESHIFT)
    (hball : ∀ j, s.bits j < 2 ^ 64)
    (hn : n / 64 < P.HALFSIZE / 64) :
    (kill_leaf_edges P sipn uorv part nonleaf nthreads s).test n =
      (s.test n && !killCond P sipn uorv part nonleaf n) := by
  unfold kill_leaf_edges
  suffices hgen : ∀ (nb : Nat),
      (∀ j, (((List.range nb).foldl
        (fun s' j => killBlock P sipn uorv part nonleaf s' (64 * j) (j % nthreads)) s).bits j
          < 2 ^ 64)) ∧
      ∀ m, ((List.range nb).foldl
        (fun s' j => killBlock P sipn uorv part nonleaf s' (64 * j) (j % nthreads)) s).test m =
        if m / 64 < nb then (s.test m && !killCond P sipn uorv part nonleaf m) else s.test m by
    rw [(hgen (P.HALFSIZE / 64)).2 n, if_pos hn]
  intro nb
  induction nb with
  | zero => exact ⟨hball, fun m => by simp⟩
  | succ k ih =>
    obtain ⟨ihb, iht⟩ := ih
    rw [List.range_succ]
    constructor
    · intro j
      rw [List.foldl_append, List.foldl_cons, List.foldl_nil]
      exact bits_killBlock_lt P sipn uorv part nonleaf _ _ _ ihb j
    · intro m
      rw [List.foldl_append, List.foldl_cons, List.foldl_nil]
      rw [test_killBlock P sipn uorv part nonleaf _ (64 * k) (k % nthreads) m
        (by omega) h1 h2 hsip ihb]
      have hdiv : (64 * k) / 64 = k := by omega
      rw [hdiv, iht m]
      by_cases hlt : m / 64 < k
      · have hne : ¬ m / 64 = k := by omega
        rw [if_neg hne, if_pos hlt, if_pos (by omega)]
      · by_cases heq : m / 64 = k
        · rw [if_pos heq, if_neg hlt, if_pos (by omega)]
        · rw [if_neg heq, if_neg hlt, if_neg (by omega)]

/-! ### Post-trim overload check

After the trim rounds thread 0 computes
`load = (u32)(100LL * alive->count() / CUCKOO_SIZE)` and calls `exit(0)`
("overloaded! exiting...") when `load >= 90`; otherwise it allocates the
cuckoo hash and cycle finding proceeds. -/

def finalLoad (P : Params) (s : shrinkingset) : Nat :=
  (100 * s.count / P.CUCKOO_SIZE) % 2 ^ 32

/-- `true` iff the worker goes on to cycle finding (the `load >= 90` exit
did not fire). -/
def proceedsToCycleFinding (P : Params) (s : shrinkingset) : Bool :=
  !(decide (90 ≤ finalLoad P s))

theorem count_fold_zeros : ∀ (k a : Nat), a < 2 ^ 64 →
    (List.replicate k 0).foldl (fun sum c => (sum + c) % 2 ^ 64) a = a := by
  intro k
  induction k with
  | zero => intro a _; rfl
  | succ j ih =>
    intro a ha
    rw [List.replicate_succ, List.foldl_cons]
    have : (a + 0) % 2 ^ 64 = a := by omega
    rw [this]
    exact ih a ha

theorem count_init (P : Params) (nthreads : Nat) (h : 0 < nthreads)
    (hH : P.HALFSIZE < 2 ^ 64) :
    (shrinkingset.init P nthreads).count = P.HALFSIZE := by
  unfold shrinkingset.init shrinkingset.count
  obtain ⟨k, rfl⟩ : ∃ k, nthreads = k + 1 := ⟨nthreads - 1, by omega⟩
  rw [List.replicate_succ]
  simp only [List.set_cons_zero, List.foldl_cons]
  have : (0 + P.HALFSIZE) % 2 ^ 64 = P.HALFSIZE := by omega
  rw [this]
  exact count_fold_zeros k _ hH

theorem test_init (P : Params) (nthreads n : Nat) :
    (shrinkingset.init P nthreads).test n = true := by
  simp [shrinkingset.init, shrinkingset.test]

/-! ### The solution recovery sweep (`solution` in `cuckoo_miner.h`) -/

/-- Body of the recovery loop: if the recomputed edge of nonce `n` is in the
cycle set, store the nonce (`sols[soli][n++] = nonce`) and, when
`PROOFSIZE > 2`, erase the edge. -/
def emitStep (P : Params) (sipn : Nat → Nat → Nat)
    (st : List (Nat × Nat) × List Nat) (n : Nat) : List (Nat × Nat) × List Nat :=
  let e := (sipn n 0, sipn n 1)
  if e ∈ st.1 then (if 2 < P.PROOFSIZE then st.1.erase e else st.1, st.2 ++ [n]) else st

/-- The full recovery sweep over all blocks, returning the emitted nonces in
store order. -/
def solutionSweep (P : Params) (sipn : Nat → Nat → Nat) (s : shrinkingset)
    (cyc : List (Nat × Nat)) : List Nat :=
  ((List.range (P.HALFSIZE / 64)).foldl (fun st j =>
      (wordSweep 64 (s.block (64 * j)) (64 * j)).foldl (emitStep P sipn) st)
    (cyc, [])).2

/-- The `assert(n==PROOFSIZE)` after the sweep. -/
@[reducible]
def solutionAssert (P : Params) (sipn : Nat → Nat → Nat) (s : shrinkingset)
    (cyc : List (Nat × Nat)) : Prop :=
  (solutionSweep P sipn s cyc).length = P.PROOFSIZE

theorem init_bits_lt (P : Params) (nt j : Nat) :
    (shrinkingset.init P nt).bits j < 2 ^ 64 := by
  unfold shrinkingset.init
  norm_num

theorem foldl_flatMap {α β σ : Type} (l : List α) (f : α → List β) (g : σ → β → σ)
    (a : σ) : (l.flatMap f).foldl g a = l.foldl (fun acc j => (f j).foldl g acc) a := by
  induction l generalizing a with
  | nil => rfl
  | cons j rest ih => simp [List.foldl_append, ih]

theorem emit_sublist (P : Params) (sipn : Nat → Nat → Nat) :
    ∀ (ns : List Nat) (c : List (Nat × Nat)) (acc : List Nat),
    ∃ t, (ns.foldl (emitStep P sipn) (c, acc)).2 = acc ++ t ∧ List.Sublist t ns := by
  intro ns
  induction ns with
  | nil => intro c acc; exact ⟨[], by simp, List.Sublist.refl _⟩
  | cons n rest ih =>
    intro c acc
    rw [List.foldl_cons]
    by_cases he : (sipn n 0, sipn n 1) ∈ c
    · have hstep : emitStep P sipn (c, acc) n =
          (if 2 < P.PROOFSIZE then c.erase (sipn n 0, sipn n 1) else c, acc ++ [n]) := by
        unfold emitStep; simp [he]
      rw [hstep]
      obtain ⟨t, ht, hs⟩ := ih _ (acc ++ [n])
      exact ⟨n :: t, by rw [ht, List.append_assoc]; rfl, hs.cons₂ n⟩
    · have hstep : emitStep P sipn (c, acc) n = (c, acc) := by
        unfold emitStep; simp [he]
      rw [hstep]
      obtain ⟨t, ht, hs⟩ := ih c acc
      exact ⟨t, ht, hs.cons n⟩

theorem allNonces_sorted (s : shrinkingset) (hball : ∀ j, s.bits j < 2 ^ 64) :
    ∀ (nb : Nat), List.Sorted (· < ·)
      ((List.range nb).flatMap (fun j => wordSweep 64 (s.block (64 * j)) (64 * j))) := by
  intro nb
  induction nb with
  | zero => simp
  | succ k ih =>
    rw [List.range_succ, List.flatMap_append]
    rw [List.Sorted, List.pairwise_append]
    refine ⟨ih, ?_, ?_⟩
    · simp only [List.flatMap_cons, List.flatMap_nil, List.append_nil]
      exact wordSweep_sorted _ _ (shrinkingset.block_lt s _ (hball _))
    · intro a ha b hb
      simp only [List.mem_flatMap, List.mem_range] at ha
      obtain ⟨j, hj, haj⟩ := ha
      have hab := wordSweep_bounds _ _ _ (shrinkingset.block_lt s _ (hball _)) haj
      simp only [List.flatMap_cons, List.flatMap_nil, List.append_nil] at hb
      have hbb := wordSweep_bounds _ _ _ (shrinkingset.block_lt s _ (hball _)) hb
      omega

theorem solutionSweep_sorted (P : Params) (sipn : Nat → Nat → Nat) (s : shrinkingset)
    (cyc : List (Nat × Nat)) (hball : ∀ j, s.bits j < 2 ^ 64) :
    List.Sorted (· < ·) (solutionSweep P sipn s cyc) := by
  unfold solutionSweep
  rw [← foldl_flatMap]
  obtain ⟨t, ht, hs⟩ := emit_sublist P sipn
    ((List.range (P.HALFSIZE / 64)).flatMap
      (fun j => wordSweep 64 (s.block (64 * j)) (64 * j))) cyc []
  rw [ht, List.nil_append]
  exact (allNonces_sorted s hball _).sublist hs

/-! ### `cuckoo_hash` (the CuckooMap)

`class cuckoo_hash` of `cuckoo_miner.h` (non-`ATOMIC` branches): an array of
`CUCKOO_SIZE` u64 slots; an entry packs `(u64)u << SIZESHIFT | v`; slot
value 0 means empty; linear probing starts at `u >> IDXSHIFT` and steps by
`(ui+1) & CUCKOO_MASK`.  The unbounded `for (;;)` probe loops are fuelled
with `CUCKOO_SIZE` steps, which visits every slot once; `none` models the
non-terminating spin that C would perform on a table with no fitting slot. -/

/-- `u64 niew = (u64)u << SIZESHIFT | v;` -/
def pack (P : Params) (u v : Nat) : Nat := ((u <<< P.SIZESHIFT) ||| v) % 2 ^ 64

/-- The stored key bits of an entry: `cu >> SIZESHIFT`. -/
def keyOf (P : Params) (e : Nat) : Nat := e >>> P.SIZESHIFT

/-- The stored value of an entry: `cu & (SIZE-1)`. -/
def valOf (P : Params) (e : Nat) : Nat := e &&& (P.SIZE - 1)

/-- The probe loop of `set(u, v)`: the first slot, starting at
`u >> IDXSHIFT` and stepping `ui = (ui+1) & CUCKOO_MASK`, that is empty or
stores key `u & KEYMASK`. -/
def setProbe (P : Params) (tbl : Nat → Nat) (u : Nat) : Nat → Nat → Option Nat
  | 0, _ => none
  | fuel + 1, ui =>
    if tbl ui = 0 ∨ (tbl ui) >>> P.SIZESHIFT = u &&& P.KEYMASK then some ui
    else setProbe P tbl u fuel ((ui + 1) &&& P.CUCKOO_MASK)

/-- `set(u, v)`: write the packed entry at the probed slot. -/
def cuckoo_set (P : Params) (tbl : Nat → Nat) (u v : Nat) : Option (Nat → Nat) :=
  (setProbe P tbl u P.CUCKOO_SIZE (u >>> P.IDXSHIFT)).map
    (fun p => fun i => if i = p then pack P u v else tbl i)

/-- The probe loop of `operator[](u)`: `some 0` at the first empty slot,
the stored value on key match. -/
def lookupProbe (P : Params) (tbl : Nat → Nat) (u : Nat) : Nat → Nat → Option Nat
  | 0, _ => none
  | fuel + 1, ui =>
    if tbl ui = 0 then some 0
    else if (tbl ui) >>> P.SIZESHIFT = u &&& P.KEYMASK then some (tbl ui &&& (P.SIZE - 1))
    else lookupProbe P tbl u fuel ((ui + 1) &&& P.CUCKOO_MASK)

/-- `operator[](u)`. -/
def cuckoo_lookup (P : Params) (tbl : Nat → Nat) (u : Nat) : Option Nat :=
  lookupProbe P tbl u P.CUCKOO_SIZE (u >>> P.IDXSHIFT)

/-- A sequence of `set` calls on a freshly calloc'ed table. -/
def applySets (P : Params) (ops : List (Nat × Nat)) : Option (Nat → Nat) :=
  ops.foldl (fun ot op => ot.bind (fun tbl => cuckoo_set P tbl op.1 op.2)) (some (fun _ => 0))

/-- The reference map: the most recently set value per key. -/
def lastMap (ops : List (Nat × Nat)) : Nat → Option Nat :=
  ops.foldl (fun m op => fun k => if k = op.1 then some op.2 else m k) (fun _ => none)

/-! #### Packing round trips -/

theorem lor_shiftLeft_shiftRight (a b s : Nat) (hb : b < 2 ^ s) :
    ((a <<< s) ||| b) >>> s = a := by
  apply Nat.eq_of_testBit_eq
  intro i
  rw [Nat.testBit_shiftRight, Nat.testBit_or, Nat.testBit_shiftLeft]
  have hble : (b.testBit (s + i)) = false :=
    Nat.testBit_lt_two_pow (lt_of_lt_of_le hb (Nat.pow_le_pow_right (by norm_num) (by omega)))
  have : s + i - s = i := by omega
  simp [hble, this]

theorem lor_shiftLeft_mod (a b s : Nat) (hb : b < 2 ^ s) :
    ((a <<< s) ||| b) % 2 ^ s = b := by
  apply Nat.eq_of_testBit_eq
  intro i
  rw [Nat.testBit_mod_two_pow, Nat.testBit_or, Nat.testBit_shiftLeft]
  by_cases hi : i < s
  · have : ¬ s ≤ i := by omega
    simp [hi, this]
  · have hble : b.testBit i = false :=
      Nat.testBit_lt_two_pow (lt_of_lt_of_le hb (Nat.pow_le_pow_right (by norm_num) (by omega)))
    simp [hi, hble]

theorem pack_eq (P : Params) (u v : Nat) (hss : 2 * P.SIZESHIFT ≤ 64)
    (hu : u < P.SIZE) (hv : v < P.SIZE) :
    pack P u v = (u <<< P.SIZESHIFT) ||| v := by
  unfold pack
  apply Nat.mod_eq_of_lt
  apply Nat.or_lt_two_pow
  · rw [Nat.shiftLeft_eq]
    calc u * 2 ^ P.SIZESHIFT < 2 ^ P.SIZESHIFT * 2 ^ P.SIZESHIFT := by
          unfold Params.SIZE at hu
          exact Nat.mul_lt_mul_of_lt_of_le hu (le_refl _) (Nat.pos_pow_of_pos _ (by norm_num))
    _ = 2 ^ (2 * P.SIZESHIFT) := by rw [← Nat.pow_add]; ring_nf
    _ ≤ 2 ^ 64 := Nat.pow_le_pow_right (by norm_num) hss
  · unfold Params.SIZE at hv
    exact lt_of_lt_of_le hv (Nat.pow_le_pow_right (by norm_num) (by omega))

theorem keyOf_pack (P : Params) (u v : Nat) (hss : 2 * P.SIZESHIFT ≤ 64)
    (hu : u < P.SIZE) (hv : v < P.SIZE) : keyOf P (pack P u v) = u := by
  rw [pack_eq P u v hss hu hv]
  unfold keyOf Params.SIZE at *
  exact lor_shiftLeft_shiftRight u v _ hv

theorem valOf_pack (P : Params) (u v : Nat) (hss : 2 * P.SIZESHIFT ≤ 64)
    (hu : u < P.SIZE) (hv : v < P.SIZE) : valOf P (pack P u v) = v := by
  rw [pack_eq P u v hss hu hv]
  unfold valOf
  have hs1 : (1 : Nat) ≤ P.SIZE := Nat.one_le_two_pow
  have : P.SIZE - 1 = 2 ^ P.SIZESHIFT - 1 := rfl
  rw [this, Nat.and_pow_two_sub_one_eq_mod]
  unfold Params.SIZE at hv
  exact lor_shiftLeft_mod u v _ hv

theorem pack_ne_zero (P : Params) (u v : Nat) (hss : 2 * P.SIZESHIFT ≤ 64)
    (hu0 : 0 < u) (hu : u < P.SIZE) (hv : v < P.SIZE) : pack P u v ≠ 0 := by
  intro h
  have := keyOf_pack P u v hss hu hv
  rw [h] at this
  unfold keyOf at this
  simp at this
  omega

/-- With `2*SIZESHIFT ≤ 64` a node survives `& KEYMASK` unchanged: there is
no key conflation. -/
theorem and_keymask (P : Params) (u : Nat) (hss : 2 * P.SIZESHIFT ≤ 64)
    (hu : u < P.SIZE) : u &&& P.KEYMASK = u := by
  rw [P.KEYMASK_eq, Nat.and_pow_two_sub_one_eq_mod]
  apply Nat.mod_eq_of_lt
  unfold Params.SIZE at hu
  unfold Params.KEYBITS
  exact lt_of_lt_of_le hu (Nat.pow_le_pow_right (by norm_num) (by omega))

/-! #### Probe arithmetic -/

/-- Cyclic probe distance from slot `h` to slot `i`. -/
def probeDist (P : Params) (h i : Nat) : Nat :=
  (i + P.CUCKOO_SIZE - h) % P.CUCKOO_SIZE

theorem and_cuckoo_mask (P : Params) (hIS : P.IDXSHIFT ≤ P.SIZESHIFT) (x : Nat) :
    x &&& P.CUCKOO_MASK = x % P.CUCKOO_SIZE := by
  unfold Params.CUCKOO_MASK
  rw [P.CUCKOO_SIZE_eq hIS, Nat.and_pow_two_sub_one_eq_mod]

theorem probeDist_lt (P : Params) (h i : Nat) (hcs : 0 < P.CUCKOO_SIZE) :
    probeDist P h i < P.CUCKOO_SIZE :=
  Nat.mod_lt _ hcs

theorem probeAt_probeDist (P : Params) (h i : Nat) (hh : h < P.CUCKOO_SIZE)
    (hi : i < P.CUCKOO_SIZE) : (h + probeDist P h i) % P.CUCKOO_SIZE = i := by
  unfold probeDist
  rw [Nat.add_mod_mod]
  have he : h + (i + P.CUCKOO_SIZE - h) = i + P.CUCKOO_SIZE := by omega
  rw [he, Nat.add_mod_right]
  exact Nat.mod_eq_of_lt hi

theorem probeDist_probeAt (P : Params) (h d : Nat) (hh : h < P.CUCKOO_SIZE)
    (hd : d < P.CUCKOO_SIZE) : probeDist P h ((h + d) % P.CUCKOO_SIZE) = d := by
  unfold probeDist
  by_cases hlt : h + d < P.CUCKOO_SIZE
  · rw [Nat.mod_eq_of_lt hlt]
    have he : h + d + P.CUCKOO_SIZE - h = d + P.CUCKOO_SIZE := by omega
    rw [he, Nat.add_mod_right]
    exact Nat.mod_eq_of_lt hd
  · have h1 : (h + d) % P.CUCKOO_SIZE = h + d - P.CUCKOO_SIZE := by
      rw [Nat.mod_eq_sub_mod (by omega)]
      exact Nat.mod_eq_of_lt (by omega)
    rw [h1]
    have he : h + d - P.CUCKOO_SIZE + P.CUCKOO_SIZE - h = d := by omega
    rw [he]
    exact Nat.mod_eq_of_lt hd

theorem probe_step (P : Params) (h d : Nat) (hcs : 0 < P.CUCKOO_SIZE) :
    ((h + 1) % P.CUCKOO_SIZE + d) % P.CUCKOO_SIZE = (h + (d + 1)) % P.CUCKOO_SIZE := by
  rw [Nat.mod_add_mod]
  congr 1
  omega

theorem setProbe_spec (P : Params) (tbl : Nat → Nat) (u : Nat)
    (hIS : P.IDXSHIFT ≤ P.SIZESHIFT) :
    ∀ (fuel d₀ ui : Nat), ui < P.CUCKOO_SIZE → d₀ < fuel →
    (tbl ((ui + d₀) % P.CUCKOO_SIZE) = 0 ∨
      (tbl ((ui + d₀) % P.CUCKOO_SIZE)) >>> P.SIZESHIFT = u &&& P.KEYMASK) →
    (∀ d < d₀, ¬(tbl ((ui + d) % P.CUCKOO_SIZE) = 0 ∨
      (tbl ((ui + d) % P.CUCKOO_SIZE)) >>> P.SIZESHIFT = u &&& P.KEYMASK)) →
    setProbe P tbl u fuel ui = some ((ui + d₀) % P.CUCKOO_SIZE) := by
  intro fuel
  induction fuel with
  | zero => intro d₀ ui _ hfuel _ _; omega
  | succ f ih =>
    intro d₀ ui hui hfuel hstop hmin
    have hcs : 0 < P.CUCKOO_SIZE := by omega
    cases d₀ with
    | zero =>
      have hui0 : (ui + 0) % P.CUCKOO_SIZE = ui := by
        rw [Nat.add_zero]; exact Nat.mod_eq_of_lt hui
      rw [hui0] at hstop
      unfold setProbe
      rw [if_pos hstop, hui0]
    | succ d =>
      have hui0 : (ui + 0) % P.CUCKOO_SIZE = ui := by
        rw [Nat.add_zero]; exact Nat.mod_eq_of_lt hui
      have hnostop : ¬(tbl ui = 0 ∨ (tbl ui) >>> P.SIZESHIFT = u &&& P.KEYMASK) := by
        have := hmin 0 (by omega)
        rwa [hui0] at this
      unfold setProbe
      rw [if_neg hnostop, and_cuckoo_mask P hIS]
      have hui' : (ui + 1) % P.CUCKOO_SIZE < P.CUCKOO_SIZE := Nat.mod_lt _ hcs
      have htrans : ∀ d', ((ui + 1) % P.CUCKOO_SIZE + d') % P.CUCKOO_SIZE =
          (ui + (d' + 1)) % P.CUCKOO_SIZE := by
        intro d'
        rw [probe_step P ui d' hcs]
      rw [ih d ((ui + 1) % P.CUCKOO_SIZE) hui' (by omega) ?_ ?_, htrans d]
      · rw [htrans d]; exact hstop
      · intro d' hd'
        rw [htrans d']
        exact hmin (d' + 1) (by omega)

theorem lookupProbe_spec (P : Params) (tbl : Nat → Nat) (u : Nat)
    (hIS : P.IDXSHIFT ≤ P.SIZESHIFT) :
    ∀ (fuel d₀ ui : Nat), ui < P.CUCKOO_SIZE → d₀ < fuel →
    (tbl ((ui + d₀) % P.CUCKOO_SIZE) = 0 ∨
      (tbl ((ui + d₀) % P.CUCKOO_SIZE)) >>> P.SIZESHIFT = u &&& P.KEYMASK) →
    (∀ d < d₀, ¬(tbl ((ui + d) % P.CUCKOO_SIZE) = 0 ∨
      (tbl ((ui + d) % P.CUCKOO_SIZE)) >>> P.SIZESHIFT = u &&& P.KEYMASK)) →
    lookupProbe P tbl u fuel ui =
      some (if tbl ((ui + d₀) % P.CUCKOO_SIZE) = 0 then 0
        else tbl ((ui + d₀) % P.CUCKOO_SIZE) &&& (P.SIZE - 1)) := by
  intro fuel
  induction fuel with
  | zero => intro d₀ ui _ hfuel _ _; omega
  | succ f ih =>
    intro d₀ ui hui hfuel hstop hmin
    have hcs : 0 < P.CUCKOO_SIZE := by omega
    cases d₀ with
    | zero =>
      have hui0 : (ui + 0) % P.CUCKOO_SIZE = ui := by
        rw [Nat.add_zero]; exact Nat.mod_eq_of_lt hui
      rw [hui0] at hstop ⊢
      unfold lookupProbe
      by_cases hz : tbl ui = 0
      · rw [if_pos hz, if_pos hz]
      · have hk : (tbl ui) >>> P.SIZESHIFT = u &&& P.KEYMASK := hstop.resolve_left hz
        rw [if_neg hz, if_pos hk, if_neg hz]
    | succ d =>
      have hui0 : (ui + 0) % P.CUCKOO_SIZE = ui := by
        rw [Nat.add_zero]; exact Nat.mod_eq_of_lt hui
      have hnostop : ¬(tbl ui = 0 ∨ (tbl ui) >>> P.SIZESHIFT = u &&& P.KEYMASK) := by
        have := hmin 0 (by omega)
        rwa [hui0] at this
      push_neg at hnostop
      unfold lookupProbe
      rw [if_neg hnostop.1, if_neg hnostop.2, and_cuckoo_mask P hIS]
      have hui' : (ui + 1) % P.CUCKOO_SIZE < P.CUCKOO_SIZE := Nat.mod_lt _ hcs
      have htrans : ∀ d', ((ui + 1) % P.CUCKOO_SIZE + d') % P.CUCKOO_SIZE =
          (ui + (d' + 1)) % P.CUCKOO_SIZE := by
        intro d'
        rw [probe_step P ui d' hcs]
      rw [ih d ((ui + 1) % P.CUCKOO_SIZE) hui' (by omega) ?_ ?_, htrans d]
      · rw [htrans d]; exact hstop
      · intro d' hd'
        rw [htrans d']
        exact hmin (d' + 1) (by omega)

/-! #### The linear-probing invariant -/

theorem home_lt (P : Params) (u : Nat) (hIS : P.IDXSHIFT ≤ P.SIZESHIFT)
    (hu : u < P.SIZE) : u >>> P.IDXSHIFT < P.CUCKOO_SIZE := by
  rw [P.CUCKOO_SIZE_eq hIS, Nat.shiftRight_eq_div_pow]
  apply Nat.div_lt_of_lt_mul
  rw [Nat.mul_comm, ← Nat.pow_add]
  have : P.SIZESHIFT - P.IDXSHIFT + P.IDXSHIFT = P.SIZESHIFT := by omega
  rw [this]
  exact hu

/-- Invariant tying the table to the reference map.  `S` over-approximates
the keys that will ever be inserted. -/
structure HashInv (P : Params) (S : Finset Nat) (tbl : Nat → Nat)
    (m : Nat → Option Nat) : Prop where
  outside : ∀ i, P.CUCKOO_SIZE ≤ i → tbl i = 0
  stored : ∀ i, i < P.CUCKOO_SIZE → tbl i ≠ 0 →
    ∃ k v, k ∈ S ∧ 0 < k ∧ k < P.SIZE ∧ v < P.SIZE ∧ m k = some v ∧ tbl i = pack P k v
  present : ∀ k v, m k = some v →
    ∃ i, i < P.CUCKOO_SIZE ∧ tbl i ≠ 0 ∧ keyOf P (tbl i) = k
  unique : ∀ i j, i < P.CUCKOO_SIZE → j < P.CUCKOO_SIZE → tbl i ≠ 0 → tbl j ≠ 0 →
    keyOf P (tbl i) = keyOf P (tbl j) → i = j
  path : ∀ i, i < P.CUCKOO_SIZE → tbl i ≠ 0 →
    ∀ d, d < probeDist P (keyOf P (tbl i) >>> P.IDXSHIFT) i →
      tbl ((keyOf P (tbl i) >>> P.IDXSHIFT + d) % P.CUCKOO_SIZE) ≠ 0

theorem HashInv.init (P : Params) (S : Finset Nat) :
    HashInv P S (fun _ => 0) (fun _ => none) := by
  refine ⟨fun _ _ => rfl, ?_, ?_, ?_, ?_⟩
  · intro i _ hne; exact absurd rfl hne
  · intro k v h; exact absurd h (by simp)
  · intro i j _ _ hne _ _; exact absurd rfl hne
  · intro i _ hne; exact absurd rfl hne

/-- Pigeonhole: fewer keys than slots leaves an empty slot on every probe
circle. -/
theorem exists_empty_probe (P : Params) (S : Finset Nat) (tbl : Nat → Nat)
    (m : Nat → Option Nat) (hss : 2 * P.SIZESHIFT ≤ 64)
    (hinv : HashInv P S tbl m) (hcard : S.card < P.CUCKOO_SIZE) (ui : Nat)
    (hui : ui < P.CUCKOO_SIZE) :
    ∃ d, d < P.CUCKOO_SIZE ∧ tbl ((ui + d) % P.CUCKOO_SIZE) = 0 := by
  by_contra hno
  push_neg at hno
  have hall : ∀ i, i < P.CUCKOO_SIZE → tbl i ≠ 0 := by
    intro i hi
    have := hno (probeDist P ui i) (probeDist_lt P ui i (by omega))
    rwa [probeAt_probeDist P ui i hui hi] at this
  have hinj : Set.InjOn (fun i => keyOf P (tbl i)) (Finset.range P.CUCKOO_SIZE) := by
    intro i hi j hj hk
    simp only [Finset.coe_range, Set.mem_Iio] at hi hj
    exact hinv.unique i j hi hj (hall i hi) (hall j hj) hk
  have hmaps : ∀ i ∈ Finset.range P.CUCKOO_SIZE, keyOf P (tbl i) ∈ S := by
    intro i hi
    simp only [Finset.mem_range] at hi
    obtain ⟨k, v, hkS, hk0, hk, hv, _, hpk⟩ := hinv.stored i hi (hall i hi)
    rw [hpk, keyOf_pack P k v hss hk hv]
    exact hkS
  have := Finset.card_le_card_of_injOn _ hmaps hinj
  rw [Finset.card_range] at this
  omega

/-- Any slot holding key `u` is the slot the probe stops at. -/
theorem slot_of_key (P : Params) (S : Finset Nat) (tbl : Nat → Nat)
    (m : Nat → Option Nat) (hss : 2 * P.SIZESHIFT ≤ 64) (hIS : P.IDXSHIFT ≤ P.SIZESHIFT)
    (hinv : HashInv P S tbl m) (u : Nat) (hu : u < P.SIZE)
    (hex : ∃ d, (tbl ((u >>> P.IDXSHIFT + d) % P.CUCKOO_SIZE) = 0 ∨
      keyOf P (tbl ((u >>> P.IDXSHIFT + d) % P.CUCKOO_SIZE)) = u))
    (i : Nat) (hi : i < P.CUCKOO_SIZE) (hne : tbl i ≠ 0) (hkey : keyOf P (tbl i) = u) :
    i = (u >>> P.IDXSHIFT + Nat.find hex) % P.CUCKOO_SIZE := by
  have hcs : 0 < P.CUCKOO_SIZE := by omega
  have hhome : u >>> P.IDXSHIFT < P.CUCKOO_SIZE := home_lt P u hIS hu
  set home := u >>> P.IDXSHIFT with hhdef
  set d₀ := Nat.find hex with hd₀def
  have hdi : (home + probeDist P home i) % P.CUCKOO_SIZE = i :=
    probeAt_probeDist P home i hhome hi
  have hQdi : tbl ((home + probeDist P home i) % P.CUCKOO_SIZE) = 0 ∨
      keyOf P (tbl ((home + probeDist P home i) % P.CUCKOO_SIZE)) = u := by
    rw [hdi]; exact Or.inr hkey
  have hle : d₀ ≤ probeDist P home i := Nat.find_min' hex hQdi
  rcases Nat.lt_or_ge d₀ (probeDist P home i) with hlt | hge
  · exfalso
    have hpath := hinv.path i hi hne
    rw [hkey] at hpath
    have hnz : tbl ((home + d₀) % P.CUCKOO_SIZE) ≠ 0 := hpath d₀ hlt
    have hQ : tbl ((home + d₀) % P.CUCKOO_SIZE) = 0 ∨
        keyOf P (tbl ((home + d₀) % P.CUCKOO_SIZE)) = u := Nat.find_spec hex
    have hkm : keyOf P (tbl ((home + d₀) % P.CUCKOO_SIZE)) = u := hQ.resolve_left hnz
    have hplt : (home + d₀) % P.CUCKOO_SIZE < P.CUCKOO_SIZE := Nat.mod_lt _ hcs
    have hpeq : (home + d₀) % P.CUCKOO_SIZE = i :=
      hinv.unique _ i hplt hi hnz hne (by rw [hkm, hkey])
    have hd₀lt : d₀ < P.CUCKOO_SIZE := by
      have := probeDist_lt P home i hcs
      omega
    have : probeDist P home i = d₀ := by
      rw [← hpeq, probeDist_probeAt P home d₀ hhome hd₀lt]
    omega
  · have heq : d₀ = probeDist P home i := by omega
    rw [heq, hdi]

theorem cuckoo_set_step (P : Params) (S : Finset Nat) (tbl : Nat → Nat)
    (m : Nat → Option Nat) (u v : Nat)
    (hss : 2 * P.SIZESHIFT ≤ 64) (hIS : P.IDXSHIFT ≤ P.SIZESHIFT)
    (hinv : HashInv P S tbl m) (hcard : S.card < P.CUCKOO_SIZE)
    (huS : u ∈ S) (hu0 : 0 < u) (hu : u < P.SIZE) (hv : v < P.SIZE) :
    ∃ tbl', cuckoo_set P tbl u v = some tbl' ∧
      HashInv P S tbl' (fun k => if k = u then some v else m k) := by
  have hcs : 0 < P.CUCKOO_SIZE := by omega
  have hhome : u >>> P.IDXSHIFT < P.CUCKOO_SIZE := home_lt P u hIS hu
  have hukm : u &&& P.KEYMASK = u := and_keymask P u hss hu
  have hex : ∃ d, tbl ((u >>> P.IDXSHIFT + d) % P.CUCKOO_SIZE) = 0 ∨
      keyOf P (tbl ((u >>> P.IDXSHIFT + d) % P.CUCKOO_SIZE)) = u := by
    obtain ⟨d, _, hz⟩ := exists_empty_probe P S tbl m hss hinv hcard _ hhome
    exact ⟨d, Or.inl hz⟩
  have hQ := Nat.find_spec hex
  have hmin : ∀ d < Nat.find hex,
      ¬(tbl ((u >>> P.IDXSHIFT + d) % P.CUCKOO_SIZE) = 0 ∨
        keyOf P (tbl ((u >>> P.IDXSHIFT + d) % P.CUCKOO_SIZE)) = u) :=
    fun d hd => Nat.find_min hex hd
  have hd₀lt : Nat.find hex < P.CUCKOO_SIZE := by
    obtain ⟨d, hdlt, hz⟩ := exists_empty_probe P S tbl m hss hinv hcard _ hhome
    have : Nat.find hex ≤ d := Nat.find_min' hex (Or.inl hz)
    omega
  have hplt : (u >>> P.IDXSHIFT + Nat.find hex) % P.CUCKOO_SIZE < P.CUCKOO_SIZE :=
    Nat.mod_lt _ hcs
  set p := (u >>> P.IDXSHIFT + Nat.find hex) % P.CUCKOO_SIZE with hpdef
  have hprobe : setProbe P tbl u P.CUCKOO_SIZE (u >>> P.IDXSHIFT) = some p := by
    apply setProbe_spec P tbl u hIS P.CUCKOO_SIZE (Nat.find hex) _ hhome hd₀lt
    · rw [hukm]
      exact hQ
    · intro d hd
      rw [hukm]
      exact hmin d hd
  refine ⟨fun i => if i = p then pack P u v else tbl i, ?_, ?_⟩
  · unfold cuckoo_set
    rw [hprobe]
    rfl
  have hpack_ne : pack P u v ≠ 0 := pack_ne_zero P u v hss hu0 hu hv
  have hkeyp : keyOf P (pack P u v) = u := keyOf_pack P u v hss hu hv
  have hmono : ∀ x, tbl x ≠ 0 → (if x = p then pack P u v else tbl x) ≠ 0 := by
    intro x hx
    by_cases hxp : x = p <;> simp [hxp, hpack_ne, hx]
  have hslot_u : ∀ i, i < P.CUCKOO_SIZE → tbl i ≠ 0 → keyOf P (tbl i) = u → i = p :=
    fun i hi hne hkey => slot_of_key P S tbl m hss hIS hinv u hu hex i hi hne hkey
  refine ⟨?_, ?_, ?_, ?_, ?_⟩
  · -- outside
    intro i hi
    have hip : i ≠ p := by omega
    simp only [if_neg hip]
    exact hinv.outside i hi
  · -- stored
    intro i hi hne
    by_cases hip : i = p
    · subst hip
      exact ⟨u, v, huS, hu0, hu, hv, by simp, by simp⟩
    · rw [if_neg hip] at hne ⊢
      obtain ⟨k, v', hkS, hk0, hk, hv', hm, hpk⟩ := hinv.stored i hi hne
      have hkey : keyOf P (tbl i) = k := by rw [hpk, keyOf_pack P k v' hss hk hv']
      have hku : k ≠ u := by
        intro hkeq
        exact hip (hslot_u i hi hne (by rw [hkey, hkeq]))
      exact ⟨k, v', hkS, hk0, hk, hv', by rw [if_neg hku]; exact hm, hpk⟩
  · -- present
    intro k v' hm'
    by_cases hk : k = u
    · subst hk
      rw [if_pos rfl] at hm'
      exact ⟨p, hplt, by simp [hpack_ne], by simp [hkeyp]⟩
    · rw [if_neg hk] at hm'
      obtain ⟨i, hi, hne, hkey⟩ := hinv.present k v' hm'
      have hip : i ≠ p := by
        intro hieq
        subst hieq
        rcases hQ with hz | hkm
        · exact hne hz
        · rw [hkey] at hkm
          exact hk hkm
      exact ⟨i, hi, by rw [if_neg hip]; exact hne, by rw [if_neg hip]; exact hkey⟩
  · -- unique
    intro i j hi hj hni hnj hkeq
    by_cases hip : i = p <;> by_cases hjp : j = p
    · rw [hip, hjp]
    · exfalso
      rw [hip] at hkeq
      rw [if_pos rfl] at hkeq
      rw [if_neg hjp] at hkeq hnj
      rw [hkeyp] at hkeq
      exact hjp (hslot_u j hj hnj hkeq.symm)
    · exfalso
      rw [hjp] at hkeq
      rw [if_pos rfl] at hkeq
      rw [if_neg hip] at hkeq hni
      rw [hkeyp] at hkeq
      exact hip (hslot_u i hi hni hkeq)
    · rw [if_neg hip] at hkeq hni
      rw [if_neg hjp] at hkeq hnj
      exact hinv.unique i j hi hj hni hnj hkeq
  · -- path
    intro i hi hni d hd
    by_cases hip : i = p
    · subst hip
      rw [if_pos rfl, hkeyp] at hd ⊢
      have hdist : probeDist P (u >>> P.IDXSHIFT) p = Nat.find hex := by
        rw [hpdef]
        exact probeDist_probeAt P _ _ hhome hd₀lt
      rw [hdist] at hd
      have hnz : tbl ((u >>> P.IDXSHIFT + d) % P.CUCKOO_SIZE) ≠ 0 := by
        have := hmin d hd
        push_neg at this
        exact this.1
      exact hmono _ hnz
    · rw [if_neg hip] at hni hd ⊢
      exact hmono _ (hinv.path i hi hni d hd)

theorem cuckoo_lookup_correct (P : Params) (S : Finset Nat) (tbl : Nat → Nat)
    (m : Nat → Option Nat) (u : Nat)
    (hss : 2 * P.SIZESHIFT ≤ 64) (hIS : P.IDXSHIFT ≤ P.SIZESHIFT)
    (hinv : HashInv P S tbl m) (hcard : S.card < P.CUCKOO_SIZE) (hu : u < P.SIZE) :
    cuckoo_lookup P tbl u = some ((m u).getD 0) := by
  have hcs : 0 < P.CUCKOO_SIZE := by omega
  have hhome : u >>> P.IDXSHIFT < P.CUCKOO_SIZE := home_lt P u hIS hu
  have hukm : u &&& P.KEYMASK = u := and_keymask P u hss hu
  have hex : ∃ d, tbl ((u >>> P.IDXSHIFT + d) % P.CUCKOO_SIZE) = 0 ∨
      keyOf P (tbl ((u >>> P.IDXSHIFT + d) % P.CUCKOO_SIZE)) = u := by
    obtain ⟨d, _, hz⟩ := exists_empty_probe P S tbl m hss hinv hcard _ hhome
    exact ⟨d, Or.inl hz⟩
  have hQ := Nat.find_spec hex
  have hmin : ∀ d < Nat.find hex,
      ¬(tbl ((u >>> P.IDXSHIFT + d) % P.CUCKOO_SIZE) = 0 ∨
        keyOf P (tbl ((u >>> P.IDXSHIFT + d) % P.CUCKOO_SIZE)) = u) :=
    fun d hd => Nat.find_min hex hd
  have hd₀lt : Nat.find hex < P.CUCKOO_SIZE := by
    obtain ⟨d, hdlt, hz⟩ := exists_empty_probe P S tbl m hss hinv hcard _ hhome
    have : Nat.find hex ≤ d := Nat.find_min' hex (Or.inl hz)
    omega
  have hplt : (u >>> P.IDXSHIFT + Nat.find hex) % P.CUCKOO_SIZE < P.CUCKOO_SIZE :=
    Nat.mod_lt _ hcs
  set p := (u >>> P.IDXSHIFT + Nat.find hex) % P.CUCKOO_SIZE with hpdef
  have hlp : lookupProbe P tbl u P.CUCKOO_SIZE (u >>> P.IDXSHIFT) =
      some (if tbl p = 0 then 0 else tbl p &&& (P.SIZE - 1)) := by
    apply lookupProbe_spec P tbl u hIS P.CUCKOO_SIZE (Nat.find hex) _ hhome hd₀lt
    · rw [hukm]
      exact hQ
    · intro d hd
      rw [hukm]
      exact hmin d hd
  unfold cuckoo_lookup
  rw [hlp]
  cases hm : m u with
  | none =>
    have hz : tbl p = 0 := by
      by_contra hne
      have hkm : keyOf P (tbl p) = u := hQ.resolve_left hne
      obtain ⟨k, v', _, hk0, hk, hv', hmk, hpk⟩ := hinv.stored p hplt hne
      have hkk : keyOf P (tbl p) = k := by rw [hpk, keyOf_pack P k v' hss hk hv']
      rw [hkk] at hkm
      rw [hkm] at hmk
      rw [hm] at hmk
      exact Option.noConfusion hmk
    rw [if_pos hz]
    rfl
  | some v =>
    obtain ⟨q, hq, hqne, hqkey⟩ := hinv.present u v hm
    have hqp : q = p := slot_of_key P S tbl m hss hIS hinv u hu hex q hq hqne hqkey
    rw [hqp] at hqne hqkey
    rw [if_neg hqne]
    obtain ⟨k, v', _, hk0, hk, hv', hmk, hpk⟩ := hinv.stored p hplt hqne
    have hkk : keyOf P (tbl p) = k := by rw [hpk, keyOf_pack P k v' hss hk hv']
    rw [hkk] at hqkey
    subst hqkey
    rw [hm] at hmk
    have hvv : v' = v := (Option.some.inj hmk).symm
    subst hvv
    have hval : tbl p &&& (P.SIZE - 1) = v' := by
      rw [hpk]
      exact valOf_pack P _ v' hss hk hv'
    rw [hval]
    rfl

/-- Folding a list of `set` operations preserves the invariant. -/
theorem applySets_inv (P : Params) (S : Finset Nat)
    (hss : 2 * P.SIZESHIFT ≤ 64) (hIS : P.IDXSHIFT ≤ P.SIZESHIFT)
    (hcard : S.card < P.CUCKOO_SIZE) :
    ∀ (ops : List (Nat × Nat)) (tbl : Nat → Nat) (m : Nat → Option Nat),
    HashInv P S tbl m →
    (∀ op ∈ ops, op.1 ∈ S ∧ 0 < op.1 ∧ op.1 < P.SIZE ∧ op.2 < P.SIZE) →
    ∃ tbl', (ops.foldl (fun ot op => ot.bind (fun t => cuckoo_set P t op.1 op.2))
        (some tbl)) = some tbl' ∧
      HashInv P S tbl'
        (ops.foldl (fun m' op => fun k => if k = op.1 then some op.2 else m' k) m) := by
  intro ops
  induction ops with
  | nil => intro tbl m hinv _; exact ⟨tbl, rfl, hinv⟩
  | cons op rest ih =>
    intro tbl m hinv hops
    obtain ⟨huS, hu0, hu, hv⟩ := hops op (List.mem_cons_self op rest)
    obtain ⟨tbl₁, hset, hinv₁⟩ :=
      cuckoo_set_step P S tbl m op.1 op.2 hss hIS hinv hcard huS hu0 hu hv
    rw [List.foldl_cons, List.foldl_cons, Option.some_bind, hset]
    exact ih tbl₁ _ hinv₁ (fun p hp => hops p (List.mem_cons_of_mem op hp))

/-! ### Concrete instances used by witnesses and counterexamples -/

/-- Tiny parameters: `SIZESHIFT = 7` (`HALFSIZE = 64`), `PART_BITS = 0`,
`PROOFSIZE = 2`. -/
def P7 : Params := ⟨7, 0, 2⟩

/-- Small parameters with `HALFSIZE = 128`. -/
def P8 : Params := ⟨8, 0, 42⟩

/-- Default-sized parameters. -/
def P20 : Params := ⟨20, 0, 42⟩

/-- A shrinking set over `HALFSIZE = 128` where exactly nonce 64 is dead. -/
def sDead64 : shrinkingset := ⟨fun j => if j = 1 then 1 else 0, [127]⟩

/-- A shrinking set over `HALFSIZE = 64` where exactly nonce 0 is dead. -/
def sDead0 : shrinkingset := ⟨fun j => if j = 0 then 1 else 0, [63]⟩

/-! ### The claims -/

/-- C1: For every emitted solution — whenever the post-sweep
`assert(n==PROOFSIZE)` passes — the recovery sweep over alive nonces emitted
exactly `PROOFSIZE` nonces, and the solution is output as a sorted strictly
ascending sequence of those nonces. -/
theorem C1_solution_recovery (P : Params) (sipn : Nat → Nat → Nat) (s : shrinkingset)
    (cyc : List (Nat × Nat)) (hball : ∀ j, s.bits j < 2 ^ 64)
    (hpass : solutionAssert P sipn s cyc) :
    (solutionSweep P sipn s cyc).length = P.PROOFSIZE ∧
      List.Sorted (· < ·) (solutionSweep P sipn s cyc) :=
  ⟨hpass, solutionSweep_sorted P sipn s cyc hball⟩

theorem C1_solution_recovery_witness :
    solutionAssert P7 (fun n _ => n) (shrinkingset.init P7 1) [(2, 2), (5, 5)] ∧
      ((solutionSweep P7 (fun n _ => n) (shrinkingset.init P7 1) [(2, 2), (5, 5)]).length
          = P7.PROOFSIZE ∧
        List.Sorted (· < ·)
          (solutionSweep P7 (fun n _ => n) (shrinkingset.init P7 1) [(2, 2), (5, 5)])) :=
  ⟨by decide, C1_solution_recovery P7 (fun n _ => n) (shrinkingset.init P7 1)
    [(2, 2), (5, 5)] (init_bits_lt P7 1) (by decide)⟩

/-- C2: Trimming is monotonic: a nonce dead after `k` trim rounds is still
dead after `k+1` rounds; no operation revives a nonce. -/
theorem C2_trim_monotonic (P : Params) (sipn : Nat → Nat → Nat) (nthreads : Nat)
    (s : shrinkingset) (k n : Nat)
    (h : ((trimRound P sipn nthreads)^[k] s).test n = false) :
    ((trimRound P sipn nthreads)^[k + 1] s).test n = false := by
  rw [Function.iterate_succ_apply']
  cases hcase : (trimRound P sipn nthreads ((trimRound P sipn nthreads)^[k] s)).test n with
  | false => rfl
  | true =>
    have := trimRound_mono P sipn nthreads _ n hcase
    rw [h] at this
    exact this.symm

theorem C2_trim_monotonic_witness :
    ((trimRound P7 (fun n _ => n % 64) 1)^[0] sDead0).test 0 = false ∧
      ((trimRound P7 (fun n _ => n % 64) 1)^[0 + 1] sDead0).test 0 = false :=
  ⟨by decide, C2_trim_monotonic P7 (fun n _ => n % 64) 1 sDead0 0 0 (by decide)⟩

/-- C3: In the kill phase of a pass `(uorv, part)`, an alive nonce `n` is
reset exactly when `node(key,n,side) & PART_MASK == part` and
`DegreeSet.test(node >> PART_BITS)` is false, and the alive bits of all
other nonces are unchanged: the post-pass alive bit of every nonce `n` is
its old bit and-ed with the negation of that condition. -/
theorem C3_kill_phase (P : Params) (sipn : Nat → Nat → Nat) (uorv part : Nat)
    (nonleaf : twice_set) (nthreads : Nat) (s : shrinkingset) (n : Nat)
    (h1 : P.PART_BITS + 1 ≤ P.SIZESHIFT) (h2 : P.SIZESHIFT ≤ 59 + P.PART_BITS)
    (h7 : 7 ≤ P.SIZESHIFT)
    (hsip : ∀ m c, sipn m c < P.HALFSIZE)
    (hball : ∀ j, s.bits j < 2 ^ 64)
    (hn : n < P.HALFSIZE) :
    (kill_leaf_edges P sipn uorv part nonleaf nthreads s).test n =
      (s.test n &&
        !(decide (sipn n uorv &&& P.PART_MASK = part) &&
          decide (nonleaf.test (sipn n uorv >>> P.PART_BITS) = 0))) := by
  have hHS : P.HALFSIZE = 2 ^ (P.SIZESHIFT - 1) := P.HALFSIZE_eq (by omega)
  have hsip' : ∀ m, sipn m uorv >>> P.PART_BITS < 2 ^ P.NONCESHIFT := by
    intro m
    rw [Nat.shiftRight_eq_div_pow]
    apply Nat.div_lt_of_lt_mul
    rw [← Nat.pow_add]
    have he : P.PART_BITS + P.NONCESHIFT = P.SIZESHIFT - 1 := by
      unfold Params.NONCESHIFT
      omega
    rw [he, ← hHS]
    exact hsip m uorv
  have hn64 : n / 64 < P.HALFSIZE / 64 := by
    apply Nat.div_lt_div_of_lt_of_dvd _ hn
    rw [hHS]
    have : (64 : Nat) = 2 ^ 6 := by norm_num
    rw [this]
    exact Nat.pow_dvd_pow 2 (by omega)
  exact test_kill_leaf_edges P sipn uorv part nonleaf nthreads s n h1 h2 hsip' hball hn64

theorem C3_kill_phase_witness :
    (∀ m c, (fun x (_ : Nat) => x % 64) m c < P7.HALFSIZE) ∧
    (kill_leaf_edges P7 (fun x (_ : Nat) => x % 64) 0 0 twice_set.reset 1
        (shrinkingset.init P7 1)).test 3 =
      ((shrinkingset.init P7 1).test 3 &&
        !(decide ((fun x (_ : Nat) => x % 64) 3 0 &&& P7.PART_MASK = 0) &&
          decide (twice_set.reset.test ((fun x (_ : Nat) => x % 64) 3 0 >>> P7.PART_BITS)
            = 0))) :=
  ⟨fun m _ => Nat.mod_lt m (by norm_num),
    C3_kill_phase P7 (fun x (_ : Nat) => x % 64) 0 0 twice_set.reset 1
      (shrinkingset.init P7 1) 3 (by decide) (by decide) (by decide)
      (fun m _ => Nat.mod_lt m (by norm_num)) (init_bits_lt P7 1) (by decide)⟩

/-- C4: the DegreeSet is a saturating 2-bit counter: from reset, `test(u)`
is 0 after zero or one `set(u)` calls and 2 (true) after two or more; one
`set` moves the counter field `00→01` and anything else to `11`, and the
field never decreases. -/
theorem C4_twice_set_saturating :
    (∀ u k, (twice_set.setIter u k).test u = if 2 ≤ k then 2 else 0) ∧
    (∀ u k, (twice_set.setIter u k).fieldVal u =
      if k = 0 then 0 else if k = 1 then 1 else 3) ∧
    (∀ (ts : twice_set) (u : Nat),
      (ts.set u).fieldVal u = if ts.fieldVal u = 0 then 1 else 3) ∧
    (∀ (ts : twice_set) (u : Nat), ts.fieldVal u ≤ (ts.set u).fieldVal u) := by
  refine ⟨?_, twice_set.fieldVal_setIter, twice_set.fieldVal_set_self,
    twice_set.fieldVal_set_mono⟩
  intro u k
  rw [twice_set.test_eq_of_fieldVal, twice_set.fieldVal_setIter]
  rcases Nat.eq_zero_or_pos k with hk | hk
  · subst hk; simp
  · rcases Nat.lt_or_ge k 2 with hk2 | hk2
    · have : k = 1 := by omega
      subst this
      norm_num
    · have h0 : ¬ k = 0 := by omega
      have h1 : ¬ k = 1 := by omega
      have h2 : 2 ≤ k := hk2
      simp [h0, h1, h2]

/-- C5: CuckooMap round trip: for any sequence of `set(u, v)` calls
respecting the table capacity (strictly fewer distinct keys than slots,
nonzero in-range keys, in-range values, no key truncation), a subsequent
`lookup(u)` returns the most recently set value for `u`, and 0 if `u` was
never set. -/
theorem C5_cuckoo_roundtrip (P : Params)
    (hss : 2 * P.SIZESHIFT ≤ 64) (hIS : P.IDXSHIFT ≤ P.SIZESHIFT)
    (ops : List (Nat × Nat))
    (hcap : ((ops.map Prod.fst).toFinset).card < P.CUCKOO_SIZE)
    (hops : ∀ op ∈ ops, 0 < op.1 ∧ op.1 < P.SIZE ∧ op.2 < P.SIZE) :
    ∃ tbl, applySets P ops = some tbl ∧
      ∀ u, u < P.SIZE → cuckoo_lookup P tbl u = some ((lastMap ops u).getD 0) := by
  obtain ⟨tbl, happ, hinv⟩ := applySets_inv P ((ops.map Prod.fst).toFinset) hss hIS hcap
    ops (fun _ => 0) (fun _ => none) (HashInv.init P _)
    (fun op hop => ⟨List.mem_toFinset.mpr (List.mem_map.mpr ⟨op, hop, rfl⟩),
      (hops op hop).1, (hops op hop).2.1, (hops op hop).2.2⟩)
  exact ⟨tbl, happ, fun u hu => cuckoo_lookup_correct P _ tbl _ u hss hIS hinv hcap hu⟩

theorem C5_cuckoo_roundtrip_witness :
    ((([(1, 2), (5, 3), (1, 7)] : List (Nat × Nat)).map Prod.fst).toFinset.card
        < P8.CUCKOO_SIZE) ∧
      (∃ tbl, applySets P8 [(1, 2), (5, 3), (1, 7)] = some tbl ∧
        ∀ u, u < P8.SIZE → cuckoo_lookup P8 tbl u =
          some ((lastMap [(1, 2), (5, 3), (1, 7)] u).getD 0)) :=
  ⟨by decide, C5_cuckoo_roundtrip P8 (by decide) (by decide) [(1, 2), (5, 3), (1, 7)]
    (by decide) (by decide)⟩

/-- C6: after the final trim round the solver aborts as "overloaded"
without cycle finding exactly when `100 * alive_count / CUCKOO_SIZE >= 90`;
otherwise cycle finding proceeds. -/
theorem C6_overload (P : Params) (s : shrinkingset)
    (hcnt : s.count ≤ P.HALFSIZE) (hpb : P.PART_BITS ≤ 19)
    (hIS : P.IDXSHIFT ≤ P.SIZESHIFT) :
    (proceedsToCycleFinding P s = false ↔ 90 ≤ 100 * s.count / P.CUCKOO_SIZE) := by
  have h1 : 1 ≤ P.SIZESHIFT := by
    unfold Params.IDXSHIFT at hIS
    omega
  have hHS : P.HALFSIZE = 2 ^ (P.SIZESHIFT - 1) := P.HALFSIZE_eq h1
  have hCS : P.CUCKOO_SIZE = 2 ^ (P.SIZESHIFT - P.IDXSHIFT) := P.CUCKOO_SIZE_eq hIS
  have hsplit : 2 ^ (P.SIZESHIFT - 1) =
      2 ^ (P.IDXSHIFT - 1) * 2 ^ (P.SIZESHIFT - P.IDXSHIFT) := by
    rw [← Nat.pow_add]
    congr 1
    unfold Params.IDXSHIFT at *
    omega
  have hle : 100 * s.count / P.CUCKOO_SIZE ≤ 100 * 2 ^ (P.IDXSHIFT - 1) := by
    calc 100 * s.count / P.CUCKOO_SIZE
        ≤ 100 * P.HALFSIZE / P.CUCKOO_SIZE := Nat.div_le_div_right (by omega)
      _ = 100 * 2 ^ (P.IDXSHIFT - 1) * 2 ^ (P.SIZESHIFT - P.IDXSHIFT)
          / 2 ^ (P.SIZESHIFT - P.IDXSHIFT) := by
          rw [hHS, hCS, hsplit]
          ring_nf
      _ = 100 * 2 ^ (P.IDXSHIFT - 1) :=
          Nat.mul_div_cancel _ (Nat.pos_pow_of_pos _ (by norm_num))
  have hbound : 100 * s.count / P.CUCKOO_SIZE < 2 ^ 32 := by
    have h24 : 100 * 2 ^ (P.IDXSHIFT - 1) ≤ 100 * 2 ^ 24 := by
      apply Nat.mul_le_mul_left
      apply Nat.pow_le_pow_right (by norm_num)
      unfold Params.IDXSHIFT at *
      omega
    have : (100 : Nat) * 2 ^ 24 < 2 ^ 32 := by norm_num
    omega
  unfold proceedsToCycleFinding finalLoad
  rw [Nat.mod_eq_of_lt hbound]
  constructor
  · intro h
    by_contra hlt
    simp [hlt] at h
  · intro h
    simp [h]

theorem C6_overload_witness :
    ((shrinkingset.init P20 1).count ≤ P20.HALFSIZE) ∧
      (proceedsToCycleFinding P20 (shrinkingset.init P20 1) = false ↔
        90 ≤ 100 * (shrinkingset.init P20 1).count / P20.CUCKOO_SIZE) :=
  ⟨by decide, C6_overload P20 (shrinkingset.init P20 1) (by decide) (by decide) (by decide)⟩

/-- C8 counterexample: after a second `reset(0)` on a fresh 64-nonce set
with one thread, `test` is indeed unchanged, but `count()` no longer equals
the number of alive nonces (it returns 62, the alive count is 63), so the
claim that a double reset leaves every observable — including `count()`
returning the number of alive nonces — as after a single reset is false. -/
theorem C8_reset_not_idempotent_counterexample :
    ¬ ((∀ m, m < P7.HALFSIZE →
          (((shrinkingset.init P7 1).reset 0 0).reset 0 0).test m =
            ((shrinkingset.init P7 1).reset 0 0).test m) ∧
        (((shrinkingset.init P7 1).reset 0 0).reset 0 0).count =
          shrinkingset.aliveCount P7 (((shrinkingset.init P7 1).reset 0 0).reset 0 0)) := by
  decide

theorem sum_set_getD : ∀ (l : List Nat) (t v : Nat), t < l.length →
    (l.set t v).sum + l.getD t 0 = l.sum + v := by
  intro l
  induction l with
  | nil => intro t v ht; simp at ht
  | cons c rest ih =>
    intro t v ht
    cases t with
    | zero => simp [List.set_cons_zero]; omega
    | succ t' =>
      simp only [List.set_cons_succ, List.sum_cons, List.getD_cons_succ]
      have := ih t' v (by simpa using ht)
      omega

theorem count_eq_sum (s : shrinkingset) : s.count = s.cnt.sum % 2 ^ 64 := by
  unfold shrinkingset.count
  suffices hgen : ∀ (l : List Nat) (a : Nat),
      l.foldl (fun x c => (x + c) % 2 ^ 64) (a % 2 ^ 64) = (a + l.sum) % 2 ^ 64 by
    have := hgen s.cnt 0
    simpa using this
  intro l
  induction l with
  | nil => intro a; simp
  | cons c rest ih =>
    intro a
    rw [List.foldl_cons, Nat.mod_add_mod, ih (a + c)]
    rw [List.sum_cons]
    congr 1
    omega

/-- C8 amended: a second `reset(n, t)` leaves the bitmap — hence every
`test(m)` — unchanged, but decrements thread `t`'s counter again, so
`count()` drops by one more (mod `2^64`) instead of still returning the
number of alive nonces; the miner never resets a dead nonce, which is why
the per-thread counters stay accurate in context. -/
theorem C8_reset_second_effect (s : shrinkingset) (n t m : Nat) (ht : t < s.cnt.length) :
    ((s.reset n t).reset n t).test m = (s.reset n t).test m ∧
      ((s.reset n t).reset n t).count = ((s.reset n t).count + (2 ^ 64 - 1)) % 2 ^ 64 := by
  constructor
  · rw [shrinkingset.test_reset, shrinkingset.test_reset]
    cases s.test m <;> cases decide (m = n) <;> simp
  · set s₁ := s.reset n t with hs₁
    have ht₁ : t < s₁.cnt.length := by
      rw [hs₁]
      unfold shrinkingset.reset
      simpa using ht
    rw [count_eq_sum, count_eq_sum, Nat.mod_add_mod]
    have hset : ((s₁.reset n t).cnt) =
        s₁.cnt.set t ((s₁.cnt.getD t 0 + (2 ^ 64 - 1)) % 2 ^ 64) := rfl
    rw [hset]
    have hsum := sum_set_getD s₁.cnt t ((s₁.cnt.getD t 0 + (2 ^ 64 - 1)) % 2 ^ 64) ht₁
    have hx : (s₁.cnt.getD t 0 + (2 ^ 64 - 1)) % 2 ^ 64 ≡
        s₁.cnt.getD t 0 + (2 ^ 64 - 1) [MOD 2 ^ 64] := Nat.mod_modEq _ _
    have hme : (s₁.cnt.set t ((s₁.cnt.getD t 0 + (2 ^ 64 - 1)) % 2 ^ 64)).sum +
        s₁.cnt.getD t 0 ≡
        (s₁.cnt.sum + (2 ^ 64 - 1)) + s₁.cnt.getD t 0 [MOD 2 ^ 64] := by
      rw [hsum]
      calc s₁.cnt.sum + (s₁.cnt.getD t 0 + (2 ^ 64 - 1)) % 2 ^ 64
          ≡ s₁.cnt.sum + (s₁.cnt.getD t 0 + (2 ^ 64 - 1)) [MOD 2 ^ 64] :=
            Nat.ModEq.add_left _ hx
        _ = s₁.cnt.sum + (2 ^ 64 - 1) + s₁.cnt.getD t 0 := by omega
    exact Nat.ModEq.add_right_cancel' _ hme

theorem C8_reset_second_effect_witness :
    (0 < ((shrinkingset.init P7 1).cnt).length) ∧
      ((((shrinkingset.init P7 1).reset 0 0).reset 0 0).test 0 =
          ((shrinkingset.init P7 1).reset 0 0).test 0 ∧
        (((shrinkingset.init P7 1).reset 0 0).reset 0 0).count =
          (((shrinkingset.init P7 1).reset 0 0).count + (2 ^ 64 - 1)) % 2 ^ 64) :=
  ⟨by decide, C8_reset_second_effect (shrinkingset.init P7 1) 0 0 0 (by decide)⟩

/-- C9 counterexample: `block(n)` reads the whole aligned word `bits[n/64]`,
so for the unaligned nonce 65 bit 0 of `block(65)` is the alive bit of
nonce 64, not 65: on a state where nonce 64 is dead and 65 alive the
claimed identity `testBit (block n) i = test (n+i)` fails. -/
theorem C9_block_counterexample :
    ¬ (∀ n, n < P8.HALFSIZE → ∀ i, i < 64 →
        (sDead64.block n).testBit i = sDead64.test (n + i)) :=
  fun h => absurd (h 65 (by decide) 0 (by decide)) (by decide)

/-- C9 amended: `block(n)` returns the alive-bits word of `n`'s *aligned*
64-nonce block: bit `i` of the result is the alive bit of nonce
`64*(n/64) + i`.  For the word-aligned `n` that every caller passes this
coincides with the claimed `[n, n+W)` window. -/
theorem C9_block_aligned (s : shrinkingset) (n i : Nat) (hi : i < 64) :
    (s.block n).testBit i = s.test (64 * (n / 64) + i) := by
  rw [shrinkingset.block_testBit s n i hi, shrinkingset.test_eq_not_testBit]
  have h1 : (64 * (n / 64) + i) / 64 = n / 64 := by omega
  have h2 : (64 * (n / 64) + i) % 64 = i := by omega
  rw [h1, h2]

theorem C9_block_aligned_witness :
    (0 < 64) ∧ (sDead64.block 65).testBit 0 = sDead64.test (64 * (65 / 64) + 0) :=
  ⟨by decide, C9_block_aligned sDead64 65 0 (by decide)⟩

/-- C10: immediately after construction with a positive thread count, every
nonce in `[0, HALFSIZE)` is alive and `count()` returns `HALFSIZE`. -/
theorem C10_fresh_set (P : Params) (nthreads : Nat) (h : 0 < nthreads)
    (hH : P.HALFSIZE < 2 ^ 64) :
    (∀ n, n < P.HALFSIZE → (shrinkingset.init P nthreads).test n = true) ∧
      (shrinkingset.init P nthreads).count = P.HALFSIZE :=
  ⟨fun n _ => test_init P nthreads n, count_init P nthreads h hH⟩

theorem C10_fresh_set_witness :
    (0 < 2) ∧
      ((∀ n, n < P7.HALFSIZE → (shrinkingset.init P7 2).test n = true) ∧
        (shrinkingset.init P7 2).count = P7.HALFSIZE) :=
  ⟨by decide, C10_fresh_set P7 2 (by decide) (by decide)⟩

end Cuckoo
